import Mathlib

/-!
Verification development for the `requestmigrations` library (Go).

The Go sources are shallowly embedded: the generic decoded JSON tree
(`interface{}` after `json.Unmarshal`) becomes the inductive `JValue`;
`reflect.Type` becomes a numeric type identity resolved in a finite type
environment; the pointer graph of `typeGraph` nodes becomes a rooted table
keyed by type identity; machine maps become association lists (Go map
iteration order is unspecified, the model fixes list order); fallible Go
functions return `Except`.  External collaborators (the JSON codec, the
semver/date parsers, prometheus metrics, the graph cache) are abstracted:
the codec as `encode`/`decode` parameters, version parsing as a
`parse : String → Option Nat` parameter fixing the configured format's
semantics, metrics dropped, and the cache elided because it only ever
stores results of the same pure builder.
-/

namespace RequestMigrations

/-- Errors produced by migration functions and the Migrator facade (Go `error` values). -/
abbrev Err := String

/-- The generic decoded tree representation: Go `interface{}` holding
`nil`, `bool`, a number, `string`, `[]interface{}` or `map[string]interface{}`
(modelled as an association list). -/
inductive JValue where
  | null
  | bool (b : Bool)
  | num (n : Int)
  | str (s : String)
  | arr (elems : List JValue)
  | obj (entries : List (String × JValue))

/-- Go `val == nil` on the decoded tree. -/
def JValue.isNull : JValue → Bool
  | .null => true
  | _ => false

mutual

/-- Size of a decoded tree, strictly dominating its depth; the forward
traversal wrapper uses it as fuel that can never run out. -/
def JValue.size : JValue → Nat
  | .null => 1
  | .bool _ => 1
  | .num _ => 1
  | .str _ => 1
  | .arr elems => jSizeElems elems + 1
  | .obj entries => jSizeEntries entries + 1

/-- See `JValue.size`. -/
def jSizeElems : List JValue → Nat
  | [] => 0
  | e :: rest => e.size + jSizeElems rest + 1

/-- See `JValue.size`. -/
def jSizeEntries : List (String × JValue) → Nat
  | [] => 0
  | (_, v) :: rest => v.size + jSizeEntries rest + 1

end

/-- Replace the first binding of `k` (Go map store `m[k] = v`), appending when absent. -/
def upsert [BEq α] : List (α × β) → α → β → List (α × β)
  | [], k, v => [(k, v)]
  | (k', v') :: rest, k, v =>
    if k' == k then (k, v) :: rest else (k', v') :: upsert rest k v

/-- TypeMigration interface: a bidirectional transformation of one decoded node.
The Go context argument (cancellation plus the caller version) is omitted:
no claim depends on it. -/
structure TypeMigration where
  MigrateForward : JValue → Except Err JValue
  MigrateBackward : JValue → Except Err JValue

/-- Go loop `for _, m := range g.Migrations { migratedData, err := m.MigrateForward(ctx, *data); ... }`:
apply the migrations front to back, each output feeding the next, stopping at the first error. -/
def applyForward : List TypeMigration → JValue → Except Err JValue
  | [], v => .ok v
  | m :: rest, v =>
    match m.MigrateForward v with
    | .error e => .error e
    | .ok v' => applyForward rest v'

/-- Go loop `for i := len(g.Migrations) - 1; i >= 0; i--`: apply the migrations
back to front (newest first), each output feeding the next, stopping at the first error. -/
def applyBackward : List TypeMigration → JValue → Except Err JValue
  | [], v => .ok v
  | m :: rest, v =>
    match applyBackward rest v with
    | .error e => .error e
    | .ok v' => m.MigrateBackward v'

/-- Type identity: Go `reflect.Type` values are interned, so identity is a key. -/
abbrev TypeId := Nat

/-- One `typeGraph` node: migrations for this type plus named children.
Go links children by pointer; the model links them by type identity into a
shared table (see `typeGraph`). -/
structure typeGraphNode where
  Migrations : List TypeMigration
  Fields : List (String × TypeId)

/-- A rooted graph: Go's pointer graph of `typeGraph` nodes, represented as a
node table keyed by type identity plus the root's identity.  Cyclic Go graphs
are representable because children are references, not subterms. -/
structure typeGraph where
  root : TypeId
  nodes : List (TypeId × typeGraphNode)

/-- Resolve a node reference.  Absent identities act as empty nodes (no
migrations, no children), matching a Go node never created. -/
def getNode (tbl : List (TypeId × typeGraphNode)) (t : TypeId) : typeGraphNode :=
  (tbl.lookup t).getD ⟨[], []⟩

/-- The field loop of `HasMigrations` (`for _, field := range g.Fields`),
with the recursive descent abstracted as `recB`. -/
def hasMigFieldsGo (recB : TypeId → Bool) : List (String × TypeId) → Bool
  | [] => false
  | f :: rest => recB f.2 || hasMigFieldsGo recB rest

/-- HasMigrations reachability: Go recurses through `Fields` with no guard
(its graphs are acyclic in the executions exercised here); the model carries
an explicit path `seen` set and fuel so the function is total even on cyclic
tables, computing the same reachability predicate wherever Go terminates. -/
def hasMigT (tbl : List (TypeId × typeGraphNode)) : Nat → List TypeId → TypeId → Bool
  | 0 => fun _ _ => false
  | fuel + 1 => fun seen t =>
    if t ∈ seen then false
    else
      match tbl.lookup t with
      | none => false
      | some node =>
        if node.Migrations.length > 0 then true
        else hasMigFieldsGo (hasMigT tbl fuel (t :: seen)) node.Fields

/-- Go `(g *typeGraph) HasMigrations()`: true when the node or any descendant
carries at least one migration. -/
def typeGraph.HasMigrations (g : typeGraph) : Bool :=
  hasMigT g.nodes (g.nodes.length + 1) [] g.root

/-- The record branch of a traversal: transform every entry whose key has a
named child — the reserved `__elem` name is skipped, nil entries are kept as
is — with the recursive descent abstracted as `recF`.  Go iterates its
`Fields` map and looks entries up in the data map; the model walks the data
entries and looks names up in `fields`: the same pairs are transformed, in
the model's fixed order (Go map order is unspecified). -/
def entriesGo (recF : TypeId → JValue → Except Err JValue) (fields : List (String × TypeId)) :
    List (String × JValue) → Except Err (List (String × JValue))
  | [] => .ok []
  | (k, val) :: rest =>
    if k ≠ "__elem" ∧ val.isNull = false then
      match fields.lookup k with
      | some cid =>
        match recF cid val with
        | .error e => .error e
        | .ok val' =>
          match entriesGo recF fields rest with
          | .error e => .error e
          | .ok rest' => .ok ((k, val') :: rest')
      | none =>
        match entriesGo recF fields rest with
        | .error e => .error e
        | .ok rest' => .ok ((k, val) :: rest')
    else
      match entriesGo recF fields rest with
      | .error e => .error e
      | .ok rest' => .ok ((k, val) :: rest')

/-- The sequence branch of a traversal: the element child's walk over every
element, abstracted as `recE`. -/
def elemsGo (recE : JValue → Except Err JValue) : List JValue → Except Err (List JValue)
  | [] => .ok []
  | e :: rest =>
    match recE e with
    | .error er => .error er
    | .ok e' =>
      match elemsGo recE rest with
      | .error er => .error er
      | .ok rest' => .ok (e' :: rest')

/-- Go `(g *typeGraph) MigrateForward(ctx, data *any)`: nil returns at once;
records recurse into matching named children, sequences map the reserved
`__elem` child over every element, then the node's own migrations run in
list (ascending) order on the updated value.  The Go recursion is structural
in the decoded value and carries no fuel; the model's fuel only makes that
termination explicit — each level descends into strict subvalues, so the
wrapper's `sizeOf`-based fuel never runs out. -/
def migrateForwardAt (tbl : List (TypeId × typeGraphNode)) :
    Nat → TypeId → JValue → Except Err JValue
  | 0 => fun _ _ => .error "value recursion fuel exhausted"
  | fuel + 1 => fun t v =>
    match v with
    | .null => .ok .null
    | .obj entries =>
      match entriesGo (migrateForwardAt tbl fuel) (getNode tbl t).Fields entries with
      | .error e => .error e
      | .ok entries' => applyForward (getNode tbl t).Migrations (.obj entries')
    | .arr elems =>
      match (getNode tbl t).Fields.lookup "__elem" with
      | none => applyForward (getNode tbl t).Migrations (.arr elems)
      | some eid =>
        match elemsGo (migrateForwardAt tbl fuel eid) elems with
        | .error e => .error e
        | .ok elems' => applyForward (getNode tbl t).Migrations (.arr elems')
    | .bool b => applyForward (getNode tbl t).Migrations (.bool b)
    | .num n => applyForward (getNode tbl t).Migrations (.num n)
    | .str s => applyForward (getNode tbl t).Migrations (.str s)

/-- Go `(g *typeGraph) MigrateForward` from the root of a rooted graph. -/
def typeGraph.MigrateForward (g : typeGraph) (v : JValue) : Except Err JValue :=
  migrateForwardAt g.nodes (v.size + 1) g.root v

/-- Go `(g *typeGraph) MigrateBackward(ctx, data *any)`: nil returns at once;
otherwise the node's own migrations run in descending (newest first) order,
then the walk recurses into the children of whatever the migrations
produced (a nil result matches no switch case, so no recursion).  Backward
recursion descends one graph edge per level; Go's graphs here are acyclic so
the wrapper's fuel `tbl.length + 1` always suffices. -/
def migrateBackwardAt (tbl : List (TypeId × typeGraphNode)) :
    Nat → TypeId → JValue → Except Err JValue
  | 0 => fun _ _ => .error "migration graph too deep"
  | fuel + 1 => fun t v =>
    if v.isNull then .ok .null
    else
      match applyBackward (getNode tbl t).Migrations v with
      | .error e => .error e
      | .ok v' =>
        match v' with
        | .obj entries =>
          match entriesGo (migrateBackwardAt tbl fuel) (getNode tbl t).Fields entries with
          | .error e => .error e
          | .ok entries' => .ok (.obj entries')
        | .arr elems =>
          match (getNode tbl t).Fields.lookup "__elem" with
          | none => .ok (.arr elems)
          | some eid =>
            match elemsGo (migrateBackwardAt tbl fuel eid) elems with
            | .error e => .error e
            | .ok elems' => .ok (.arr elems')
        | other => .ok other

/-- Go `(g *typeGraph) MigrateBackward` from the root of a rooted graph. -/
def typeGraph.MigrateBackward (g : typeGraph) (v : JValue) : Except Err JValue :=
  migrateBackwardAt g.nodes (g.nodes.length + 1) g.root v

/-- One struct field of a Go type: declared name, the `json` tag ("" when the
tag is absent) and the field's type identity. -/
structure GoField where
  name : String
  jsonTag : String
  type : TypeId

/-- Shape (`reflect.Kind` plus structure) of a Go type, referring to other
types by identity so that self-referential types are representable. `prim`
covers every leaf kind the builders never traverse (string, int, bool, ...). -/
inductive TypeShape where
  | prim
  | struct (fields : List GoField)
  | slice (elem : TypeId)
  | array (elem : TypeId)
  | ptr (elem : TypeId)
  | map (key elem : TypeId)
  | iface

/-- A `reflect.Type` descriptor: `PkgPath()` ("" for built-ins and anonymous
composites) and the shape. -/
structure TypeDesc where
  pkgPath : String
  shape : TypeShape

/-- The finite universe of types of a program run. -/
abbrev TypeEnv := List TypeDesc

/-- Resolve a type identity; identities outside the environment behave as
anonymous primitives (they are never produced by `reflect`). -/
def getType (env : TypeEnv) (t : TypeId) : TypeDesc :=
  (env.get? t).getD ⟨"", .prim⟩

/-- Go loop `for t.Kind() == reflect.Ptr { t = t.Elem() }`.  The Go loop has
no bound; fuel `env.length + 1` unwinds every pointer chain of a well-formed
type universe (a longer chain would repeat an identity, and a circular named
pointer type would loop in Go as well). -/
def derefAllPtr (env : TypeEnv) : Nat → TypeId → TypeId
  | 0, t => t
  | fuel + 1, t =>
    match (getType env t).shape with
    | .ptr e => derefAllPtr env fuel e
    | _ => t

/-- The single pointer-dereference step at the head of `walkType`
(Go `if t.Kind() == reflect.Ptr { t = t.Elem() }`). -/
def derefOnce (env : TypeEnv) (t : TypeId) : TypeId :=
  match (getType env t).shape with
  | .ptr e => e
  | _ => t

/-- Go `dereferenceToLastPtr`: `***T -> *T`, `*T -> *T`, `T -> T` (drop all
but the last pointer level), with the same fuel convention. -/
def dereferenceToLastPtr (env : TypeEnv) : Nat → TypeId → TypeId
  | 0, t => t
  | fuel + 1, t =>
    match (getType env t).shape with
    | .ptr e =>
      match (getType env e).shape with
      | .ptr _ => dereferenceToLastPtr env fuel e
      | _ => t
    | _ => t

/-- Serialization name of a field: the first comma-separated component of the
`json` tag when a tag is present, else the declared name
(Go: `strings.Split(tag, ",")[0]`). -/
def fieldJSONName (f : GoField) : String :=
  if f.jsonTag = "" then f.name else ((f.jsonTag.splitOn ",").headD "")

/-- The field loop of `typeHasInterfaceFieldsRec`, descent abstracted. -/
def ifaceFieldsGo (recB : TypeId → Bool) : List GoField → Bool
  | [] => false
  | f :: rest => recB f.type || ifaceFieldsGo recB rest

/-- Go `typeHasInterfaceFieldsRecursive`: does an interface kind occur
anywhere in the reachable shape?  The source threads a `visited` map as
memoization; the model keeps a per-path `visited` list plus fuel, computing
the same reachability predicate. -/
def typeHasInterfaceFieldsRec (env : TypeEnv) : Nat → List TypeId → TypeId → Bool
  | 0 => fun _ _ => false
  | fuel + 1 => fun visited t =>
    let t := derefAllPtr env (env.length + 1) t
    if t ∈ visited then false
    else
      match (getType env t).shape with
      | .iface => true
      | .struct fields => ifaceFieldsGo (typeHasInterfaceFieldsRec env fuel (t :: visited)) fields
      | .slice e => typeHasInterfaceFieldsRec env fuel (t :: visited) e
      | .array e => typeHasInterfaceFieldsRec env fuel (t :: visited) e
      | .map k e =>
        typeHasInterfaceFieldsRec env fuel (t :: visited) k ||
          typeHasInterfaceFieldsRec env fuel (t :: visited) e
      | _ => false

/-- Go `typeHasInterfaceFields`. -/
def typeHasInterfaceFields (env : TypeEnv) (t : TypeId) : Bool :=
  typeHasInterfaceFieldsRec env (env.length + 1) [] t

/-- Go `isValidMigrationType`: dereference pointers, then accept exactly the
types with a nonempty `PkgPath` (user-declared named types); built-in
primitives and anonymous composites have an empty `PkgPath` and are blocked. -/
def isValidMigrationType (env : TypeEnv) (t : TypeId) : Bool :=
  let t := derefAllPtr env (env.length + 1) t
  if (getType env t).pkgPath = "" then false else true

/-- A version value.  The Go struct also carries the format; a registry holds
a single format, which the model represents by the ambient
`parse : String → Option Nat` parameter giving that format's parser and
order (`time.Parse`/`semver.NewVersion`; `none` models a parse error). -/
structure Version where
  Value : String

/-- Go `(v *Version) Equal`: parse both sides, `false` on any parse failure. -/
def Version.Equal (parse : String → Option Nat) (v vv : Version) : Bool :=
  match parse v.Value with
  | none => false
  | some sv =>
    match parse vv.Value with
    | none => false
    | some svv => sv == svv

/-- Modelled from the spec: `isOlderThan(a,b)` is not in the repository's
sources (only its callers are).  Per §4.1, ordering parses both values in the
configured format and a parsing failure is treated as not comparable,
returning false from the ordering predicate. -/
def Version.isOlderThan (parse : String → Option Nat) (v vv : Version) : Bool :=
  match parse v.Value, parse vv.Value with
  | some a, some b => decide (a < b)
  | _, _ => false

/-- Spec-side predicate for claim statements: `v` is strictly newer than `u`
(both parse and `u`'s value precedes `v`'s). -/
def strictlyNewer (parse : String → Option Nat) (v u : Version) : Bool :=
  match parse v.Value, parse u.Value with
  | some a, some b => decide (b < a)
  | _, _ => false

/-- Version format tags (Go string constants). -/
def SemverFormat : String := "semver"

/-- See `SemverFormat`. -/
def DateFormat : String := "date"

/-- Go `sort.Slice(rm.versions, ...)` with `less = isOlderThan` in the
configured format: the result carries no inversion of `less`; insertion sort
by the complementary non-strict relation realizes that. -/
def sortVersions (parse : String → Option Nat) (versions : List Version) : List Version :=
  versions.insertionSort fun a b => Version.isOlderThan parse b a = false

/-- Configuration and registry state of `RequestMigration`.  The prometheus
histogram and the graph cache are omitted (metrics are a side effect; the
cache only ever stores results of the pure graph builder, so load-or-build
is observationally the builder itself). -/
structure RequestMigration where
  format : String
  currentVersion : String
  getUserVersionFunc : Option (String → Except Err String)
  iv : String
  versions : List Version
  migrations : List (TypeId × List (String × TypeMigration))
  built : Bool
  err : Option Err

/-- The version loop of `FindMigrationsForType`: walk `rm.versions` (sorted
oldest to newest after Build), skip versions equal to or older than the
caller's, and collect this type's migration at each remaining version. -/
def findLoop (parse : String → Option Nat) (typeHistory : List (String × TypeMigration))
    (userVersion : Version) : List Version → List TypeMigration
  | [] => []
  | v :: rest =>
    if Version.Equal parse v userVersion || Version.isOlderThan parse v userVersion then
      findLoop parse typeHistory userVersion rest
    else
      match typeHistory.lookup v.Value with
      | some migration => migration :: findLoop parse typeHistory userVersion rest
      | none => findLoop parse typeHistory userVersion rest

/-- Go `FindMigrationsForType`: nothing for an unregistered type, else the
version loop over this type's history. -/
def FindMigrationsForType (parse : String → Option Nat) (rm : RequestMigration)
    (t : TypeId) (userVersion : Version) : List TypeMigration :=
  match rm.migrations.lookup t with
  | none => []
  | some typeHistory => findLoop parse typeHistory userVersion rm.versions

/-- Go `registerTypeMigration`: append the version to `rm.versions` when its
string is new, then store the migration under `migrations[t][version]`
(overwriting any previous entry for the pair). -/
def registerTypeMigration (rm : RequestMigration) (version : String) (t : TypeId)
    (m : TypeMigration) : RequestMigration :=
  let versionKnown := rm.versions.any fun v => v.Value == version
  let versions' := if versionKnown then rm.versions else rm.versions ++ [⟨version⟩]
  let typeHistory := (rm.migrations.lookup t).getD []
  { rm with
    versions := versions'
    migrations := upsert rm.migrations t (upsert typeHistory version m) }

/-- One entry of a `Register` call (Go `VersionedTypeMigration`, built by the
generic `Migration[T]` helper). -/
structure VersionedTypeMigration where
  version : String
  t : TypeId
  migration : TypeMigration

/-- Go error strings (package-level `errors.New` values). -/
def ErrNativeTypeMigration : Err := "cannot register migration for native Go type"

/-- See `ErrNativeTypeMigration`. -/
def ErrAlreadyBuilt : Err := "cannot register migrations after Build() has been called"

/-- See `ErrNativeTypeMigration`. -/
def ErrNotBuilt : Err := "must call Build() before using RequestMigration"

/-- See `ErrNativeTypeMigration`. -/
def ErrInvalidVersionFormat : Err := "invalid version format"

/-- The entry loop of `Register`: stop at the first invalid type, recording
`ErrNativeTypeMigration`; otherwise register every entry. -/
def registerEntries (env : TypeEnv) (rm : RequestMigration) :
    List VersionedTypeMigration → RequestMigration
  | [] => rm
  | entry :: rest =>
    if isValidMigrationType env entry.t = false then
      { rm with err := some ErrNativeTypeMigration }
    else
      registerEntries env (registerTypeMigration rm entry.version entry.t entry.migration) rest

/-- Go `(rm *RequestMigration) Register`: returns `rm` for chaining; errors
are accumulated in `rm.err` and surfaced when `Build` is called. -/
def Register (env : TypeEnv) (rm : RequestMigration)
    (migrations : List VersionedTypeMigration) : RequestMigration :=
  if rm.err.isSome then rm
  else if rm.built then { rm with err := some ErrAlreadyBuilt }
  else registerEntries env rm migrations

/-- Go `(rm *RequestMigration) Build`: surface an accumulated error, refuse a
second call, sort the version sequence by the configured format, eagerly
pre-build cached graphs (elided: pre-build failures are dropped and the cache
restates the pure builder) and mark the instance built. -/
def Build (parse : String → Option Nat) (rm : RequestMigration) :
    RequestMigration × Option Err :=
  match rm.err with
  | some e => (rm, some e)
  | none =>
    if rm.built then (rm, some ErrAlreadyBuilt)
    else if rm.format == SemverFormat || rm.format == DateFormat then
      ({ rm with versions := sortVersions parse rm.versions, built := true }, none)
    else (rm, some ErrInvalidVersionFormat)

/-- Go `isStringEmpty`. -/
def isStringEmpty (s : String) : Bool := s.trim.length == 0

/-- An inbound request, reduced to what `getUserVersion` reads from it: the
value of the configured version header. -/
structure HttpRequest where
  headerValue : String

/-- Go `getUserVersion`: the header value when present, else the configured
callback, else the initial (zero) version. -/
def getUserVersion (rm : RequestMigration) (req : HttpRequest) : Except Err Version :=
  if isStringEmpty req.headerValue = false then .ok ⟨req.headerValue⟩
  else
    match rm.getUserVersionFunc with
    | some f =>
      match f req.headerValue with
      | .error e => .error e
      | .ok vh => .ok ⟨vh⟩
    | none => .ok ⟨rm.iv⟩

/-- The request-scoped handle produced by `For`/`Bind` (the Go struct also
carries a context whose only payload is this same version). -/
structure Migrator where
  rm : RequestMigration
  userVersion : Version

/-- Go `(rm *RequestMigration) For`: refuse before a successful `Build`,
refuse a nil request, resolve the caller's version, return the handle. -/
def RequestMigration.For (rm : RequestMigration) (r : Option HttpRequest) :
    Except Err Migrator :=
  if rm.built = false then .error ErrNotBuilt
  else
    match r with
    | none => .error "request cannot be nil"
    | some req =>
      match getUserVersion rm req with
      | .error e => .error e
      | .ok userVersion => .ok ⟨rm, userVersion⟩

/-- Go `Bind`, an alias for `For`. -/
def RequestMigration.Bind (rm : RequestMigration) (r : Option HttpRequest) :
    Except Err Migrator :=
  rm.For r

/-- Append a named child to node `t`'s field map (Go `graph.Fields[name] = child`). -/
def addField (tbl : List (TypeId × typeGraphNode)) (t : TypeId) (name : String)
    (cid : TypeId) : List (TypeId × typeGraphNode) :=
  match tbl.lookup t with
  | none => tbl
  | some node => upsert tbl t { node with Fields := node.Fields ++ [(name, cid)] }

/-- The field loop of `walkType`'s struct case, with the recursive walk
abstracted as `recT`. -/
def walkTypeFieldsGo
    (recT : TypeId → List TypeId → List (TypeId × typeGraphNode) →
      Option (TypeId × List TypeId × List (TypeId × typeGraphNode)))
    (t : TypeId) :
    List GoField → List TypeId → List (TypeId × typeGraphNode) →
    Option (List TypeId × List (TypeId × typeGraphNode))
  | [], visited, tbl => some (visited, tbl)
  | f :: rest, visited, tbl =>
    match recT f.type visited tbl with
    | none => none
    | some (fid, visited, tbl) =>
      let tbl := if hasMigT tbl (tbl.length + 1) [] fid
        then addField tbl t (fieldJSONName f) fid else tbl
      walkTypeFieldsGo recT t rest visited tbl

/-- Go `(b *typeGraphBuilder) walkType`: one pointer dereference, then either
return the already-visited (possibly in-progress) node for this identity, or
create the node, record it in `visited` before expanding children, set its
migrations, and recurse into the element type (slice/array) or the fields
(struct), attaching each child only when it reaches migrations.  Go threads
`visited` and the under-construction object graph by mutation; the model
threads the `visited` list and the node table explicitly.  The Go recursion
carries no fuel; `claim_C6` and its supporting lemmas show the fuel used by
`buildFromType` can never run out. -/
def walkType (env : TypeEnv) (find : TypeId → List TypeMigration) :
    Nat → TypeId → List TypeId → List (TypeId × typeGraphNode) →
    Option (TypeId × List TypeId × List (TypeId × typeGraphNode))
  | 0 => fun _ _ _ => none
  | fuel + 1 => fun t visited tbl =>
    let t := derefOnce env t
    if t ∈ visited then some (t, visited, tbl)
    else
      let visited := t :: visited
      let tbl := upsert tbl t ⟨find t, []⟩
      match (getType env t).shape with
      | .slice e =>
        match walkType env find fuel e visited tbl with
        | none => none
        | some (eid, visited, tbl) =>
          let tbl := if hasMigT tbl (tbl.length + 1) [] eid then addField tbl t "__elem" eid else tbl
          some (t, visited, tbl)
      | .array e =>
        match walkType env find fuel e visited tbl with
        | none => none
        | some (eid, visited, tbl) =>
          let tbl := if hasMigT tbl (tbl.length + 1) [] eid then addField tbl t "__elem" eid else tbl
          some (t, visited, tbl)
      | .struct fields =>
        match walkTypeFieldsGo (walkType env find fuel) t fields visited tbl with
        | none => none
        | some (visited, tbl) => some (t, visited, tbl)
      | _ => some (t, visited, tbl)

/-- Go `(b *typeGraphBuilder) buildFromType`: strip pointers down to the last
level, then walk with a fresh `visited` map.  The fuel `env.length + 1`
bounds the recursion by the number of distinct type identities and, by
`walkType_isSome`, never runs out. -/
def buildFromType (env : TypeEnv) (find : TypeId → List TypeMigration) (t : TypeId) :
    Option typeGraph :=
  let t := dereferenceToLastPtr env (env.length + 1) t
  match walkType env find (env.length + 1) t [] [] with
  | none => none
  | some (root, _, tbl) => some ⟨root, tbl⟩

/-- A typed runtime Go value (`reflect.Value`), carrying its type identity.
`scalar` covers every kind the runtime builder never opens (primitives and
maps); `vseq` covers slice and array values; nil pointers and nil interfaces
hold `none`. -/
inductive GoVal where
  | scalar (t : TypeId)
  | vstruct (t : TypeId) (fields : List GoVal)
  | vseq (t : TypeId) (elems : List GoVal)
  | vptr (t : TypeId) (inner : Option GoVal)
  | viface (t : TypeId) (inner : Option GoVal)

/-- Go `v.Type()`. -/
def GoVal.typeOf : GoVal → TypeId
  | .scalar t => t
  | .vstruct t _ => t
  | .vseq t _ => t
  | .vptr t _ => t
  | .viface t _ => t

mutual

/-- Size of a runtime value, strictly dominating its depth; the runtime
builder's wrapper uses it as fuel that can never run out. -/
def GoVal.size : GoVal → Nat
  | .scalar _ => 1
  | .vstruct _ fields => gSizeVals fields + 1
  | .vseq _ elems => gSizeVals elems + 1
  | .vptr _ none => 1
  | .vptr _ (some inner) => inner.size + 1
  | .viface _ none => 1
  | .viface _ (some inner) => inner.size + 1

/-- See `GoVal.size`. -/
def gSizeVals : List GoVal → Nat
  | [] => 0
  | v :: rest => v.size + gSizeVals rest + 1

end

/-- Identity of the fresh empty node Go allocates for a nil pointer
(`&typeGraph{Fields: ...}`): an identity outside every type universe used in
this development, so the empty-node default of `getNode` applies. -/
def nilGraphRoot : TypeId := 1000000000

/-- The interface-free fast path of `walkValue`: delegate the whole subtree to
the static builder; the delegated graph is a separate Go object graph, merged
here in front of the current table (its entries take lookup precedence). -/
def delegateStatic (env : TypeEnv) (find : TypeId → List TypeMigration) (t : TypeId)
    (visited : List TypeId) (tbl : List (TypeId × typeGraphNode)) :
    Option (TypeId × List TypeId × List (TypeId × typeGraphNode)) :=
  match buildFromType env find t with
  | none => none
  | some g => some (g.root, visited, g.nodes ++ tbl)

/-- Attach the walked first element as the reserved `__elem` child when it
reaches migrations (the homogeneous-collection assumption of `walkValue`). -/
def attachElem (t : TypeId) :
    Option (TypeId × List TypeId × List (TypeId × typeGraphNode)) →
    Option (TypeId × List TypeId × List (TypeId × typeGraphNode))
  | none => none
  | some (eid, visited, tbl) =>
    some (t, visited,
      if hasMigT tbl (tbl.length + 1) [] eid then addField tbl t "__elem" eid else tbl)

/-- The struct fields of a type, empty for any other shape. -/
def structFieldsOf (env : TypeEnv) (t : TypeId) : List GoField :=
  match (getType env t).shape with
  | .struct fields => fields
  | _ => []

/-- The field loop of `walkValue`'s struct case, walking declared fields and
field values in lockstep, with the recursive value walk abstracted as `recV`. -/
def walkValueFieldsGo (env : TypeEnv) (find : TypeId → List TypeMigration)
    (recV : GoVal → List TypeId → List (TypeId × typeGraphNode) →
      Option (TypeId × List TypeId × List (TypeId × typeGraphNode)))
    (parent : TypeId) :
    List GoField → List GoVal → List TypeId → List (TypeId × typeGraphNode) →
    Option (List TypeId × List (TypeId × typeGraphNode))
  | [], _, visited, tbl => some (visited, tbl)
  | _ :: _, [], visited, tbl => some (visited, tbl)
  | fd :: fds, fv :: fvs, visited, tbl =>
    match (getType env fd.type).shape with
    | .iface =>
      match fv with
      | .viface _ none => walkValueFieldsGo env find recV parent fds fvs visited tbl
      | .viface _ (some actual) =>
        match recV actual visited tbl with
        | none => none
        | some (fid, visited, tbl) =>
          let tbl := if hasMigT tbl (tbl.length + 1) [] fid
            then addField tbl parent (fieldJSONName fd) fid else tbl
          walkValueFieldsGo env find recV parent fds fvs visited tbl
      | _ => walkValueFieldsGo env find recV parent fds fvs visited tbl
    | _ =>
      match buildFromType env find fd.type with
      | none => none
      | some g =>
        let tbl := g.nodes ++ tbl
        let tbl := if typeGraph.HasMigrations g
          then addField tbl parent (fieldJSONName fd) g.root else tbl
        walkValueFieldsGo env find recV parent fds fvs visited tbl

/-- Go `(b *typeGraphBuilder) walkValue`: dereference pointers (nil yields a
fresh empty graph), return the in-progress node on a revisited identity,
delegate interface-free shapes wholly to the static builder, and otherwise
build a value-driven node — opening the first element of a sequence
(unwrapping a non-nil interface element) and, for struct fields, recursing on
the concrete value behind an interface field while delegating every other
field's declared type to the static builder.  Unexported fields
(`CanInterface`) do not occur in the model.  The Go recursion is structural
in the value and carries no fuel; the wrapper's `sizeOf`-based fuel makes
that explicit and never runs out. -/
def walkValue (env : TypeEnv) (find : TypeId → List TypeMigration) :
    Nat → GoVal → List TypeId → List (TypeId × typeGraphNode) →
    Option (TypeId × List TypeId × List (TypeId × typeGraphNode))
  | 0 => fun _ _ _ => none
  | fuel + 1 => fun v visited tbl =>
    match v with
    | .vptr _ none => some (nilGraphRoot, visited, tbl)
    | .vptr _ (some inner) => walkValue env find fuel inner visited tbl
    | .scalar t =>
      if t ∈ visited then some (t, visited, tbl)
      else if typeHasInterfaceFields env t = false then delegateStatic env find t visited tbl
      else some (t, t :: visited, upsert tbl t ⟨find t, []⟩)
    | .viface t _ =>
      if t ∈ visited then some (t, visited, tbl)
      else if typeHasInterfaceFields env t = false then delegateStatic env find t visited tbl
      else some (t, t :: visited, upsert tbl t ⟨find t, []⟩)
    | .vseq t elems =>
      if t ∈ visited then some (t, visited, tbl)
      else if typeHasInterfaceFields env t = false then delegateStatic env find t visited tbl
      else
        let visited := t :: visited
        let tbl := upsert tbl t ⟨find t, []⟩
        match elems with
        | [] => some (t, visited, tbl)
        | e :: _ =>
          match e with
          | .viface _ (some ev) => attachElem t (walkValue env find fuel ev visited tbl)
          | e' => attachElem t (walkValue env find fuel e' visited tbl)
    | .vstruct t fieldVals =>
      if t ∈ visited then some (t, visited, tbl)
      else if typeHasInterfaceFields env t = false then delegateStatic env find t visited tbl
      else
        let visited := t :: visited
        let tbl := upsert tbl t ⟨find t, []⟩
        match walkValueFieldsGo env find (walkValue env find fuel) t
            (structFieldsOf env t) fieldVals visited tbl with
        | none => none
        | some (visited, tbl) => some (t, visited, tbl)

/-- Go `(b *typeGraphBuilder) buildFromValue`: walk the live value with a
fresh `visited` map. -/
def buildFromValue (env : TypeEnv) (find : TypeId → List TypeMigration) (v : GoVal) :
    Option typeGraph :=
  match walkValue env find (v.size + 1) v [] [] with
  | none => none
  | some (root, _, tbl) => some ⟨root, tbl⟩

/-- Go `(m *Migrator) Marshal`: build the graph from the live value; with no
reachable migrations delegate to the plain codec (`json.Marshal`), otherwise
encode to the generic tree (`readBody`), run the backward traversal and
re-encode.  The codec is the abstract `encode` parameter (bytes are
identified with the tree they decode to), and the latency metric is elided. -/
def Migrator.Marshal (env : TypeEnv) (parse : String → Option Nat)
    (encode : GoVal → JValue) (m : Migrator) (v : GoVal) : Except Err JValue :=
  match buildFromValue env (fun ty => FindMigrationsForType parse m.rm ty m.userVersion) v with
  | none => .error "graph build failed"
  | some graph =>
    if graph.HasMigrations = false then .ok (encode v)
    else
      match graph.MigrateBackward (encode v) with
      | .error e => .error e
      | .ok intermediate => .ok intermediate

/-- Go `(m *Migrator) Unmarshal`: require a pointer target, resolve (or
build) the static graph for the target type and the bound version, fast-path
to the plain codec when the graph is empty, otherwise decode to the generic
tree, run the forward traversal and decode the result into the typed target
(`writeBody`).  The codec is the abstract `decode` parameter; a migration
error is returned before `decode` ever runs, so the typed target — written
only by `decode` — is untouched on failure.  The graph cache is elided (it
stores results of this same pure builder). -/
def Migrator.Unmarshal (env : TypeEnv) (parse : String → Option Nat)
    (decode : JValue → Except Err GoVal) (m : Migrator) (t : TypeId) (data : JValue) :
    Except Err GoVal :=
  match (getType env t).shape with
  | .ptr _ =>
    match buildFromType env (fun ty => FindMigrationsForType parse m.rm ty m.userVersion) t with
    | none => .error "graph build failed"
    | some graph =>
      if graph.HasMigrations = false then decode data
      else
        match graph.MigrateForward data with
        | .error e => .error e
        | .ok intermediate => decode intermediate
  | _ => .error "v must be a pointer"

/-- Spec-side decomposition target for the forward traversal: the child pass
alone (recurse into record entries with named children, into every sequence
element via the reserved element child, leave everything else alone). -/
def forwardChildren (tbl : List (TypeId × typeGraphNode)) (fuel : Nat)
    (fields : List (String × TypeId)) : JValue → Except Err JValue
  | .obj entries =>
    match entriesGo (migrateForwardAt tbl fuel) fields entries with
    | .error e => .error e
    | .ok entries' => .ok (.obj entries')
  | .arr elems =>
    match fields.lookup "__elem" with
    | none => .ok (.arr elems)
    | some eid =>
      match elemsGo (migrateForwardAt tbl fuel eid) elems with
      | .error e => .error e
      | .ok elems' => .ok (.arr elems')
  | other => .ok other

/-- Spec-side decomposition target for the backward traversal: the child pass
alone, using each child's backward walk; a nil value matches no case and is
returned untouched (no recursion). -/
def backwardChildren (tbl : List (TypeId × typeGraphNode)) (fuel : Nat)
    (fields : List (String × TypeId)) : JValue → Except Err JValue
  | .obj entries =>
    match entriesGo (migrateBackwardAt tbl fuel) fields entries with
    | .error e => .error e
    | .ok entries' => .ok (.obj entries')
  | .arr elems =>
    match fields.lookup "__elem" with
    | none => .ok (.arr elems)
    | some eid =>
      match elemsGo (migrateBackwardAt tbl fuel eid) elems with
      | .error e => .error e
      | .ok elems' => .ok (.arr elems')
  | other => .ok other

/-- The parsed order key of a version (total under the parseability
hypotheses of the claims that use it). -/
def parseVal (parse : String → Option Nat) (v : Version) : Nat :=
  (parse v.Value).getD 0

/-- Follow a value's pointer chain to its end (Go's dereference loop in
`walkValue`); a nil pointer is left as is. -/
def derefVal : GoVal → GoVal
  | .vptr t none => .vptr t none
  | .vptr _ (some inner) => derefVal inner
  | v => v

/-- Number of non-nil pointer indirections at the head of a value. -/
def chainLen : GoVal → Nat
  | .vptr _ (some inner) => chainLen inner + 1
  | _ => 0

/-- Well-formed, fully non-nil pointer chain: every pointer level's type
really is a pointer type to the next level's type, and the final value's type
is not a pointer type (a value of a circular pointer type such as
`type T *T` is necessarily nil somewhere, so no such value satisfies this). -/
def ptrChainOk (env : TypeEnv) : GoVal → Prop
  | .vptr _ none => False
  | .vptr t (some inner) =>
    (getType env t).shape = .ptr inner.typeOf ∧ ptrChainOk env inner
  | v => ∀ e, (getType env v.typeOf).shape ≠ .ptr e

/-- Identity migration used by concrete witnesses. -/
def idMigration : TypeMigration := ⟨fun v => .ok v, fun v => .ok v⟩

/-- Always-failing migration used by concrete witnesses. -/
def failMigration : TypeMigration := ⟨fun _ => .error "boom", fun _ => .error "boom"⟩

/-- Concrete parser for witnesses: versions are the numerals. -/
def witParse : String → Option Nat := fun s =>
  if s = "1" then some 1 else if s = "2" then some 2 else if s = "3" then some 3 else none

/-- Witness type universe: identity 0 a built-in primitive, identity 1 a
user-named alias of a primitive, identity 2 a pointer to identity 1. -/
def witEnv : TypeEnv := [⟨"", .prim⟩, ⟨"example", .prim⟩, ⟨"", .ptr 1⟩]

/-- Witness registry: empty, date format, not yet built. -/
def witRM : RequestMigration :=
  { format := DateFormat
    currentVersion := "3"
    getUserVersionFunc := none
    iv := "1"
    versions := [⟨"1"⟩]
    migrations := []
    built := false
    err := none }

/-- Witness registry carrying a failing migration for identity 1 at
version "2", as it stands after a successful Build at those versions. -/
def witRMBuilt : RequestMigration :=
  { format := DateFormat
    currentVersion := "3"
    getUserVersionFunc := none
    iv := "1"
    versions := [⟨"1"⟩, ⟨"2"⟩]
    migrations := [(1, [("2", failMigration)])]
    built := true
    err := none }

/-- Witness node table: one node carrying one (failing) migration. -/
def witTbl : List (TypeId × typeGraphNode) := [(0, ⟨[failMigration], []⟩)]

/-- Number of type identities of the universe not yet in the builder's
`visited` map: the measure that bounds `walkType`'s recursion. -/
def unvisitedCount (env : TypeEnv) (visited : List TypeId) : Nat :=
  ((Finset.range env.length).filter fun i => i ∉ visited).card

theorem lookup_upsert [BEq α] [LawfulBEq α] (l : List (α × β)) (k : α) (v : β) :
    (upsert l k v).lookup k = some v := by
  induction l with
  | nil => simp [upsert, List.lookup]
  | cons hd tl ih =>
    obtain ⟨k', v'⟩ := hd
    by_cases h : k' = k
    · subst h
      simp [upsert, List.lookup]
    · have hb : (k' == k) = false := beq_eq_false_iff_ne.mpr h
      have hb' : (k == k') = false := beq_eq_false_iff_ne.mpr fun hk => h hk.symm
      simp [upsert, hb, hb', List.lookup, ih]

/-- C10. Every call to `For` (or its alias `Bind`) made before `Build` has
been called and succeeded returns `ErrNotBuilt` and no `Migrator`: the `built`
flag is only ever set by a successful `Build`, and `For` refuses any state
where it is unset, whatever the request. -/
theorem claim_C10 (rm : RequestMigration) (r : Option HttpRequest)
    (h : rm.built = false) :
    rm.For r = .error ErrNotBuilt ∧ rm.Bind r = .error ErrNotBuilt := by
  constructor <;> simp [RequestMigration.For, RequestMigration.Bind, h]

theorem claim_C10_witness :
    witRM.For none = .error ErrNotBuilt ∧ witRM.Bind none = .error ErrNotBuilt :=
  claim_C10 witRM none rfl

/-- C7. Registering a type whose pointer-dereferenced identity has an empty
`PkgPath` — a built-in primitive or an anonymous collection/map/interface
type — records the configuration error `ErrNativeTypeMigration`, while a
user-named type (nonempty `PkgPath`, possibly behind pointers) is accepted:
no error is recorded and the migration is stored under the type and version. -/
theorem claim_C7 (env : TypeEnv) (rm : RequestMigration) (e : VersionedTypeMigration)
    (herr : rm.err = none) (hbuilt : rm.built = false) :
    ((getType env (derefAllPtr env (env.length + 1) e.t)).pkgPath = "" →
      (Register env rm [e]).err = some ErrNativeTypeMigration) ∧
    ((getType env (derefAllPtr env (env.length + 1) e.t)).pkgPath ≠ "" →
      (Register env rm [e]).err = none ∧
      (((Register env rm [e]).migrations.lookup e.t).getD []).lookup e.version =
        some e.migration) := by
  have hreg : Register env rm [e] = registerEntries env rm [e] := by
    simp [Register, herr, hbuilt]
  constructor
  · intro hpkg
    have hinvalid : isValidMigrationType env e.t = false := by
      simp [isValidMigrationType, hpkg]
    simp [hreg, registerEntries, hinvalid]
  · intro hpkg
    have hvalid : isValidMigrationType env e.t = true := by
      simp [isValidMigrationType, hpkg]
    simp only [hreg, registerEntries, hvalid, Bool.true_eq_false, if_false]
    refine ⟨herr, ?_⟩
    simp [registerTypeMigration, lookup_upsert]

theorem claim_C7_witness :
    (Register witEnv witRM [⟨"2", 0, idMigration⟩]).err = some ErrNativeTypeMigration ∧
    ((Register witEnv witRM [⟨"2", 2, idMigration⟩]).err = none ∧
      (((Register witEnv witRM [⟨"2", 2, idMigration⟩]).migrations.lookup 2).getD
          []).lookup "2" = some idMigration) :=
  ⟨(claim_C7 witEnv witRM ⟨"2", 0, idMigration⟩ rfl rfl).1 (by decide),
   (claim_C7 witEnv witRM ⟨"2", 2, idMigration⟩ rfl rfl).2 (by decide)⟩

/-- C8 (amended). `Register` performs no version-format validation: whatever
the version string — parseable in the configured format or not — registering
it for a valid type records no error, and the subsequent `Build` also
succeeds; an unparseable version string is never surfaced, it only makes the
affected version compare as not-equal and not-older during sorting and
migration selection. -/
theorem claim_C8 (env : TypeEnv) (parse : String → Option Nat) (rm : RequestMigration)
    (e : VersionedTypeMigration) (herr : rm.err = none) (hbuilt : rm.built = false)
    (hvalid : isValidMigrationType env e.t = true)
    (hfmt : rm.format = SemverFormat ∨ rm.format = DateFormat) :
    (Register env rm [e]).err = none ∧
    (Build parse (Register env rm [e])).2 = none := by
  have hreg : Register env rm [e] =
      registerTypeMigration rm e.version e.t e.migration := by
    simp [Register, herr, hbuilt, registerEntries, hvalid]
  have herr' : (Register env rm [e]).err = none := by
    simp [hreg, registerTypeMigration, herr]
  have hbuilt' : (Register env rm [e]).built = false := by
    simp [hreg, registerTypeMigration, hbuilt]
  have hfmt' : (Register env rm [e]).format = rm.format := by
    simp [hreg, registerTypeMigration]
  refine ⟨herr', ?_⟩
  rcases hfmt with hf | hf <;>
    simp [Build, herr', hbuilt', hfmt', hf, SemverFormat, DateFormat]

/-- C8 counterexample. The version string "nope" does not parse in the
configured format, yet the `Register` call supplying it records no error —
`Register` has no error result at all, only the accumulated `err` field,
which stays empty — and the later `Build` succeeds too: no configuration
error is ever produced for the unparseable version. -/
theorem claim_C8_counterexample :
    witParse "nope" = none ∧
    (Register witEnv witRM [⟨"nope", 1, idMigration⟩]).err = none ∧
    (Build witParse (Register witEnv witRM [⟨"nope", 1, idMigration⟩])).2 = none := by
  refine ⟨by decide, rfl, rfl⟩

theorem claim_C8_witness :
    (Register witEnv witRM [⟨"nope", 1, idMigration⟩]).err = none ∧
    (Build witParse (Register witEnv witRM [⟨"nope", 1, idMigration⟩])).2 = none :=
  claim_C8 witEnv witParse witRM ⟨"nope", 1, idMigration⟩ rfl rfl (by decide) (Or.inr rfl)

theorem applyForward_foldlM (ms : List TypeMigration) (v : JValue) :
    applyForward ms v = ms.foldlM (fun acc mg => mg.MigrateForward acc) v := by
  induction ms generalizing v with
  | nil => rfl
  | cons m rest ih =>
    simp only [applyForward]
    rw [List.foldlM_cons]
    cases h : m.MigrateForward v with
    | error e => rfl
    | ok v' => exact ih v'

theorem applyBackward_foldlM (ms : List TypeMigration) (v : JValue) :
    applyBackward ms v = ms.reverse.foldlM (fun acc mg => mg.MigrateBackward acc) v := by
  induction ms generalizing v with
  | nil => rfl
  | cons m rest ih =>
    simp only [applyBackward]
    rw [List.reverse_cons, List.foldlM_append, ← ih]
    cases h : applyBackward rest v with
    | error e => rfl
    | ok v' =>
      show m.MigrateBackward v' = m.MigrateBackward v' >>= fun x => pure x
      exact (bind_pure (m.MigrateBackward v')).symm

/-- C2. For every graph node and every non-nil decoded value, the forward
traversal first runs the child pass — named children over record entries, the
reserved element child over every sequence element — and only then folds the
node's own migrations, in ascending (list) order, over the recursed value,
each migration's output feeding the next. -/
theorem claim_C2 (tbl : List (TypeId × typeGraphNode)) (fuel : Nat) (t : TypeId)
    (v : JValue) (h : v.isNull = false) :
    migrateForwardAt tbl (fuel + 1) t v =
      match forwardChildren tbl fuel (getNode tbl t).Fields v with
      | .error e => .error e
      | .ok v' =>
        (getNode tbl t).Migrations.foldlM (fun acc mg => mg.MigrateForward acc) v' := by
  cases v with
  | null => simp [JValue.isNull] at h
  | obj entries =>
    simp only [migrateForwardAt, forwardChildren]
    cases hfe : entriesGo (migrateForwardAt tbl fuel) (getNode tbl t).Fields entries <;>
      simp [hfe, applyForward_foldlM]
  | arr elems =>
    simp only [migrateForwardAt, forwardChildren]
    cases hl : (getNode tbl t).Fields.lookup "__elem" with
    | none => simp [hl, applyForward_foldlM]
    | some eid =>
      cases hfe : elemsGo (migrateForwardAt tbl fuel eid) elems <;>
        simp [hl, hfe, applyForward_foldlM]
  | bool b => simp only [migrateForwardAt, forwardChildren, applyForward_foldlM]
  | num n => simp only [migrateForwardAt, forwardChildren, applyForward_foldlM]
  | str s => simp only [migrateForwardAt, forwardChildren, applyForward_foldlM]

theorem claim_C2_witness :
    (JValue.str "x").isNull = false ∧
    migrateForwardAt witTbl 1 0 (.str "x") =
      match forwardChildren witTbl 0 (getNode witTbl 0).Fields (.str "x") with
      | .error e => .error e
      | .ok v' =>
        (getNode witTbl 0).Migrations.foldlM (fun acc mg => mg.MigrateForward acc) v' :=
  ⟨rfl, claim_C2 witTbl 0 0 (.str "x") rfl⟩

/-- C3. For every graph node and every non-nil decoded value, the backward
traversal first folds the node's own migrations in descending order (newest
first, realized as the ascending fold of the reversed list, each output
feeding the next); when the migrations produce nil the child pass returns it
untouched (no recursion), and otherwise the child pass recurses into record
children and sequence elements with each child's backward walk. -/
theorem claim_C3 :
    (∀ tbl fuel t v, JValue.isNull v = false →
      migrateBackwardAt tbl (fuel + 1) t v =
        match applyBackward (getNode tbl t).Migrations v with
        | .error e => .error e
        | .ok v' => backwardChildren tbl fuel (getNode tbl t).Fields v') ∧
    (∀ ms v, applyBackward ms v =
      ms.reverse.foldlM (fun acc mg => mg.MigrateBackward acc) v) ∧
    (∀ tbl fuel fields, backwardChildren tbl fuel fields .null = .ok .null) := by
  refine ⟨?_, applyBackward_foldlM, fun tbl fuel fields => rfl⟩
  intro tbl fuel t v h
  simp only [migrateBackwardAt]
  rw [if_neg (by simp [h])]
  cases happ : applyBackward (getNode tbl t).Migrations v with
  | error e => rfl
  | ok v' => cases v' <;> rfl

theorem claim_C3_witness :
    migrateBackwardAt witTbl 1 0 (.str "x") =
      match applyBackward (getNode witTbl 0).Migrations (.str "x") with
      | .error e => .error e
      | .ok v' => backwardChildren witTbl 0 (getNode witTbl 0).Fields v' :=
  claim_C3.1 witTbl 0 0 (.str "x") rfl

/-- C4. A migration error during an Unmarshal traversal is returned by
`Unmarshal` unchanged — in the model the typed target is only ever produced
by the final decode, which an error precedes, matching the detached
intermediate tree of the source — and the migration fold is fail-fast: once
one migration errors, the migrations after it never run. -/
theorem claim_C4 :
    (∀ env parse decode (m : Migrator) (t pt : TypeId) (data : JValue)
        (graph : typeGraph) (e : Err),
      (getType env t).shape = .ptr pt →
      buildFromType env (fun ty => FindMigrationsForType parse m.rm ty m.userVersion) t =
        some graph →
      graph.HasMigrations = true →
      graph.MigrateForward data = .error e →
      Migrator.Unmarshal env parse decode m t data = .error e) ∧
    (∀ (ms₁ : List TypeMigration) (mg : TypeMigration) (ms₂ : List TypeMigration)
        (v v₁ : JValue) (e : Err),
      applyForward ms₁ v = .ok v₁ →
      mg.MigrateForward v₁ = .error e →
      applyForward (ms₁ ++ mg :: ms₂) v = .error e) := by
  constructor
  · intro env parse decode m t pt data graph e hsh hb hmig herr
    simp [Migrator.Unmarshal, hsh, hb, hmig, herr]
  · intro ms₁ mg ms₂ v v₁ e h1 h2
    induction ms₁ generalizing v with
    | nil =>
      simp only [applyForward] at h1
      cases h1
      simp [applyForward, h2]
    | cons m rest ih =>
      simp only [applyForward] at h1 ⊢
      cases hm : m.MigrateForward v with
      | error e' => simp [hm] at h1
      | ok w =>
        rw [hm] at h1
        exact ih w h1

theorem claim_C4_witness :
    Migrator.Unmarshal witEnv witParse (fun _ => .ok (GoVal.scalar 0))
      ⟨witRMBuilt, ⟨"1"⟩⟩ 2 (.str "x") = .error "boom" :=
  claim_C4.1 witEnv witParse (fun _ => .ok (GoVal.scalar 0)) ⟨witRMBuilt, ⟨"1"⟩⟩ 2 1
    (.str "x") ⟨1, [(1, ⟨[failMigration], []⟩)]⟩ "boom" rfl rfl rfl rfl

/-- C5. For a value of a type with no reachable migrations anywhere in its
graph — both graphs, the one built from the value by Marshal and the one
built from the target type by Unmarshal, are empty — Marshal produces
exactly the plain codec encoding of the value, and Unmarshal of those bytes
reproduces the value through the pass-through fast path, given that the
external codec itself round-trips the value. -/
theorem claim_C5 (env : TypeEnv) (parse : String → Option Nat)
    (encode : GoVal → JValue) (decode : JValue → Except Err GoVal) (m : Migrator)
    (v : GoVal) (t pt : TypeId) (gv gt : typeGraph)
    (hbv : buildFromValue env
      (fun ty => FindMigrationsForType parse m.rm ty m.userVersion) v = some gv)
    (hgv : gv.HasMigrations = false)
    (hsh : (getType env t).shape = .ptr pt)
    (hbt : buildFromType env
      (fun ty => FindMigrationsForType parse m.rm ty m.userVersion) t = some gt)
    (hgt : gt.HasMigrations = false)
    (hcodec : decode (encode v) = .ok v) :
    Migrator.Marshal env parse encode m v = .ok (encode v) ∧
    Migrator.Unmarshal env parse decode m t (encode v) = .ok v := by
  constructor
  · simp [Migrator.Marshal, hbv, hgv]
  · simp [Migrator.Unmarshal, hsh, hbt, hgt, hcodec]

theorem claim_C5_witness :
    Migrator.Marshal witEnv witParse (fun _ => .str "enc") ⟨witRM, ⟨"1"⟩⟩
      (GoVal.scalar 1) = .ok (.str "enc") ∧
    Migrator.Unmarshal witEnv witParse (fun _ => .ok (GoVal.scalar 1)) ⟨witRM, ⟨"1"⟩⟩
      2 (.str "enc") = .ok (GoVal.scalar 1) :=
  claim_C5 witEnv witParse (fun _ => .str "enc") (fun _ => .ok (GoVal.scalar 1))
    ⟨witRM, ⟨"1"⟩⟩ (GoVal.scalar 1) 2 1 ⟨1, [(1, ⟨[], []⟩)]⟩ ⟨1, [(1, ⟨[], []⟩)]⟩
    rfl rfl rfl rfl rfl rfl

theorem findLoop_eq_filterMap (parse : String → Option Nat)
    (typeHistory : List (String × TypeMigration)) (u : Version)
    (hu : (parse u.Value).isSome) :
    ∀ versions : List Version, (∀ v ∈ versions, (parse v.Value).isSome) →
      findLoop parse typeHistory u versions =
        (versions.filter fun v => strictlyNewer parse v u).filterMap
          (fun v => typeHistory.lookup v.Value) := by
  intro versions hv
  induction versions with
  | nil => rfl
  | cons v rest ih =>
    obtain ⟨a, ha⟩ := Option.isSome_iff_exists.mp (hv v (List.mem_cons_self v rest))
    obtain ⟨b, hb⟩ := Option.isSome_iff_exists.mp hu
    have ihr := ih fun w hw => hv w (List.mem_cons_of_mem v hw)
    by_cases hsn : strictlyNewer parse v u = true
    · have hgt : b < a := by
        simpa [strictlyNewer, ha, hb] using hsn
      have hcond : (Version.Equal parse v u || Version.isOlderThan parse v u) = false := by
        simp only [Version.Equal, Version.isOlderThan, ha, hb, Bool.or_eq_false_iff,
          beq_eq_false_iff_ne, ne_eq, decide_eq_false_iff_not]
        omega
      simp only [findLoop, hcond, Bool.false_eq_true, if_false, List.filter_cons, hsn,
        if_true, List.filterMap_cons]
      cases hl : typeHistory.lookup v.Value <;> simp [hl, ihr]
    · have hsnf : strictlyNewer parse v u = false := by
        simpa using hsn
      have hle : a ≤ b := by
        simp only [strictlyNewer, ha, hb, decide_eq_true_eq] at hsnf
        simpa using hsnf
      have hcond : (Version.Equal parse v u || Version.isOlderThan parse v u) = true := by
        simp only [Version.Equal, Version.isOlderThan, ha, hb, Bool.or_eq_true,
          beq_iff_eq, decide_eq_true_eq]
        omega
      simp only [findLoop, hcond, if_true, List.filter_cons, hsnf, Bool.false_eq_true,
        if_false]
      exact ihr

/-- C1. Assuming every version string in the registry and the caller's
version parse in the configured format, and the version sequence is sorted
ascending (as Build leaves it), `FindMigrationsForType` returns exactly the
migrations registered for the type at versions strictly newer than the
caller's — versions equal to or older than the caller's are excluded — in
ascending version order: the result is the in-order image of the
strictly-newer versions under the type's history, that version list is
ascending, and membership is exactly registration at a strictly newer
version. -/
theorem claim_C1 (parse : String → Option Nat) (rm : RequestMigration) (t : TypeId)
    (u : Version) (typeHistory : List (String × TypeMigration))
    (hist : rm.migrations.lookup t = some typeHistory)
    (hver : ∀ v ∈ rm.versions, (parse v.Value).isSome)
    (huser : (parse u.Value).isSome)
    (hsorted : rm.versions.Pairwise fun a b => parseVal parse a ≤ parseVal parse b) :
    FindMigrationsForType parse rm t u =
      (rm.versions.filter fun v => strictlyNewer parse v u).filterMap
        (fun v => typeHistory.lookup v.Value) ∧
    ((rm.versions.filter fun v => strictlyNewer parse v u).Pairwise
      fun a b => parseVal parse a ≤ parseVal parse b) ∧
    (∀ mg, mg ∈ FindMigrationsForType parse rm t u ↔
      ∃ v ∈ rm.versions, strictlyNewer parse v u = true ∧
        typeHistory.lookup v.Value = some mg) := by
  have hmain : FindMigrationsForType parse rm t u =
      (rm.versions.filter fun v => strictlyNewer parse v u).filterMap
        (fun v => typeHistory.lookup v.Value) := by
    simp only [FindMigrationsForType, hist]
    exact findLoop_eq_filterMap parse typeHistory u huser rm.versions hver
  refine ⟨hmain, hsorted.filter _, fun mg => ?_⟩
  rw [hmain]
  simp only [List.mem_filterMap, List.mem_filter]
  constructor
  · rintro ⟨v, ⟨hvmem, hvnew⟩, hvlook⟩
    exact ⟨v, hvmem, hvnew, hvlook⟩
  · rintro ⟨v, hvmem, hvnew, hvlook⟩
    exact ⟨v, ⟨hvmem, hvnew⟩, hvlook⟩

theorem claim_C1_witness :
    FindMigrationsForType witParse witRMBuilt 1 ⟨"1"⟩ =
      (witRMBuilt.versions.filter fun v => strictlyNewer witParse v ⟨"1"⟩).filterMap
        (fun v => [("2", failMigration)].lookup v.Value) ∧
    ((witRMBuilt.versions.filter fun v => strictlyNewer witParse v ⟨"1"⟩).Pairwise
      fun a b => parseVal witParse a ≤ parseVal witParse b) ∧
    (∀ mg, mg ∈ FindMigrationsForType witParse witRMBuilt 1 ⟨"1"⟩ ↔
      ∃ v ∈ witRMBuilt.versions, strictlyNewer witParse v ⟨"1"⟩ = true ∧
        [("2", failMigration)].lookup v.Value = some mg) :=
  claim_C1 witParse witRMBuilt 1 ⟨"1"⟩ [("2", failMigration)] rfl
    (by intro v hv; fin_cases hv <;> decide) (by decide) (by decide)

theorem unvisitedCount_mono (env : TypeEnv) {v1 v2 : List TypeId}
    (h : v1 ⊆ v2) : unvisitedCount env v2 ≤ unvisitedCount env v1 := by
  apply Finset.card_le_card
  intro x hx
  simp only [unvisitedCount, Finset.mem_filter, Finset.mem_range] at hx ⊢
  exact ⟨hx.1, fun hmem => hx.2 (h hmem)⟩

theorem unvisitedCount_cons_lt (env : TypeEnv) {t : TypeId} {visited : List TypeId}
    (ht : t < env.length) (hmem : t ∉ visited) :
    unvisitedCount env (t :: visited) < unvisitedCount env visited := by
  apply Finset.card_lt_card
  have hsub : ((Finset.range env.length).filter fun i => i ∉ t :: visited) ⊆
      (Finset.range env.length).filter fun i => i ∉ visited := by
    intro x hx
    simp only [Finset.mem_filter, Finset.mem_range, List.mem_cons] at hx ⊢
    exact ⟨hx.1, fun hv => hx.2 (Or.inr hv)⟩
  refine (Finset.ssubset_iff_of_subset hsub).mpr ⟨t, ?_, ?_⟩
  · simp only [Finset.mem_filter, Finset.mem_range]
    exact ⟨ht, hmem⟩
  · simp only [Finset.mem_filter, Finset.mem_range, List.mem_cons, not_and, not_not]
    intro _
    exact Or.inl trivial

theorem getType_shape_lt (env : TypeEnv) {t : TypeId} {s : TypeShape}
    (hs : (getType env t).shape = s) (hne : s ≠ .prim) : t < env.length := by
  by_contra hge
  push_neg at hge
  rw [getType, List.get?_eq_none.mpr hge] at hs
  exact hne hs.symm

theorem walkTypeFieldsGo_sub
    {recT : TypeId → List TypeId → List (TypeId × typeGraphNode) →
      Option (TypeId × List TypeId × List (TypeId × typeGraphNode))}
    (hsub : ∀ u vis tbl out, recT u vis tbl = some out → vis ⊆ out.2.1) :
    ∀ (fields : List GoField) (t : TypeId) vis tbl out,
      walkTypeFieldsGo recT t fields vis tbl = some out → vis ⊆ out.1 := by
  intro fields
  induction fields with
  | nil =>
    intro t vis tbl out h
    simp only [walkTypeFieldsGo, Option.some_inj] at h
    subst h
    exact fun x hx => hx
  | cons f rest ih =>
    intro t vis tbl out h
    simp only [walkTypeFieldsGo] at h
    cases hrec : recT f.type vis tbl with
    | none => rw [hrec] at h; cases h
    | some o1 =>
      obtain ⟨fid, vis1, tbl1⟩ := o1
      rw [hrec] at h
      exact List.Subset.trans (hsub _ _ _ _ hrec) (ih t vis1 _ out h)

theorem walkType_sub (env : TypeEnv) (find : TypeId → List TypeMigration) :
    ∀ fuel t vis tbl out, walkType env find fuel t vis tbl = some out →
      vis ⊆ out.2.1 := by
  intro fuel
  induction fuel with
  | zero => intro t vis tbl out h; cases h
  | succ fuel ih =>
    intro t vis tbl out h
    have hgrow : vis ⊆ derefOnce env t :: vis := fun x hx => List.mem_cons_of_mem _ hx
    simp only [walkType] at h
    by_cases hmem : derefOnce env t ∈ vis
    · rw [if_pos hmem] at h
      obtain rfl := Option.some_inj.mp h
      exact fun x hx => hx
    · rw [if_neg hmem] at h
      split at h
      · -- slice element recursion
        split at h
        · exact Option.noConfusion h
        · rename_i hrec
          have hsub2 := ih _ _ _ _ hrec
          obtain rfl := Option.some_inj.mp h
          exact List.Subset.trans hgrow hsub2
      · -- array element recursion
        split at h
        · exact Option.noConfusion h
        · rename_i hrec
          have hsub2 := ih _ _ _ _ hrec
          obtain rfl := Option.some_inj.mp h
          exact List.Subset.trans hgrow hsub2
      · -- struct field loop
        split at h
        · exact Option.noConfusion h
        · rename_i hrec
          have hsub2 := walkTypeFieldsGo_sub (fun u v tb o hh => ih u v tb o hh)
            _ _ _ _ _ hrec
          obtain rfl := Option.some_inj.mp h
          exact List.Subset.trans hgrow hsub2
      · -- leaf shapes
        obtain rfl := Option.some_inj.mp h
        exact hgrow

theorem walkTypeFieldsGo_isSome (env : TypeEnv) (fuel : Nat)
    {recT : TypeId → List TypeId → List (TypeId × typeGraphNode) →
      Option (TypeId × List TypeId × List (TypeId × typeGraphNode))}
    (hsub : ∀ u vis tbl out, recT u vis tbl = some out → vis ⊆ out.2.1)
    (hsome : ∀ u vis tbl, unvisitedCount env vis < fuel → (recT u vis tbl).isSome) :
    ∀ (fields : List GoField) (t : TypeId) vis tbl,
      unvisitedCount env vis < fuel →
      (walkTypeFieldsGo recT t fields vis tbl).isSome := by
  intro fields
  induction fields with
  | nil => intro t vis tbl _; simp [walkTypeFieldsGo]
  | cons f rest ih =>
    intro t vis tbl hcnt
    have h1 := hsome f.type vis tbl hcnt
    cases hrec : recT f.type vis tbl with
    | none => rw [hrec] at h1; cases h1
    | some o1 =>
      obtain ⟨fid, vis1, tbl1⟩ := o1
      have hcnt1 : unvisitedCount env vis1 < fuel :=
        lt_of_le_of_lt (unvisitedCount_mono env (hsub _ _ _ _ hrec)) hcnt
      simp only [walkTypeFieldsGo, hrec]
      exact ih t vis1 _ hcnt1

theorem walkType_isSome (env : TypeEnv) (find : TypeId → List TypeMigration) :
    ∀ fuel t vis tbl, unvisitedCount env vis < fuel →
      (walkType env find fuel t vis tbl).isSome := by
  intro fuel
  induction fuel with
  | zero => intro t vis tbl h; exact absurd h (Nat.not_lt_zero _)
  | succ fuel ih =>
    intro t vis tbl hcnt
    simp only [walkType]
    by_cases hmem : derefOnce env t ∈ vis
    · rw [if_pos hmem]; rfl
    · rw [if_neg hmem]
      split
      · -- slice element recursion
        rename_i e hshape
        have hlt : derefOnce env t < env.length :=
          getType_shape_lt env hshape (by intro hc; cases hc)
        have hcnt1 : unvisitedCount env (derefOnce env t :: vis) < fuel := by
          have := unvisitedCount_cons_lt env hlt hmem
          omega
        have h1 := ih e (derefOnce env t :: vis)
          (upsert tbl (derefOnce env t) ⟨find (derefOnce env t), []⟩) hcnt1
        cases hrec : walkType env find fuel e (derefOnce env t :: vis)
            (upsert tbl (derefOnce env t) ⟨find (derefOnce env t), []⟩) with
        | none => rw [hrec] at h1; cases h1
        | some o1 =>
          obtain ⟨eid, vis1, tbl1⟩ := o1
          rfl
      · -- array element recursion
        rename_i e hshape
        have hlt : derefOnce env t < env.length :=
          getType_shape_lt env hshape (by intro hc; cases hc)
        have hcnt1 : unvisitedCount env (derefOnce env t :: vis) < fuel := by
          have := unvisitedCount_cons_lt env hlt hmem
          omega
        have h1 := ih e (derefOnce env t :: vis)
          (upsert tbl (derefOnce env t) ⟨find (derefOnce env t), []⟩) hcnt1
        cases hrec : walkType env find fuel e (derefOnce env t :: vis)
            (upsert tbl (derefOnce env t) ⟨find (derefOnce env t), []⟩) with
        | none => rw [hrec] at h1; cases h1
        | some o1 =>
          obtain ⟨eid, vis1, tbl1⟩ := o1
          rfl
      · -- struct field loop
        rename_i fields hshape
        have hlt : derefOnce env t < env.length :=
          getType_shape_lt env hshape (by intro hc; cases hc)
        have hcnt1 : unvisitedCount env (derefOnce env t :: vis) < fuel := by
          have := unvisitedCount_cons_lt env hlt hmem
          omega
        have h1 := walkTypeFieldsGo_isSome env fuel
          (fun u v tb o hh => walkType_sub env find fuel u v tb o hh)
          (fun u v tb hc => ih u v tb hc) fields (derefOnce env t)
          (derefOnce env t :: vis)
          (upsert tbl (derefOnce env t) ⟨find (derefOnce env t), []⟩) hcnt1
        cases hfg : walkTypeFieldsGo (walkType env find fuel) (derefOnce env t) fields
            (derefOnce env t :: vis)
            (upsert tbl (derefOnce env t) ⟨find (derefOnce env t), []⟩) with
        | none => rw [hfg] at h1; cases h1
        | some o1 =>
          obtain ⟨vis1, tbl1⟩ := o1
          rfl
      · -- leaf shapes
        rfl

/-- C6. `buildFromType` terminates (returns a graph) for every type of every
finite type universe, self-referential universes included: the builder
records each identity in `visited` before expanding its children and returns
the in-progress node on a re-encounter, so the recursion is bounded by the
number of distinct type identities — formally, fuel `env.length + 1`
dominates the `unvisitedCount` measure and can never run out. -/
theorem claim_C6 (env : TypeEnv) (find : TypeId → List TypeMigration) (t : TypeId) :
    (buildFromType env find t).isSome := by
  have hcnt : unvisitedCount env [] < env.length + 1 := by
    have h1 : unvisitedCount env [] ≤ env.length := by
      have h2 := Finset.card_filter_le (Finset.range env.length)
        fun i => i ∉ ([] : List TypeId)
      simp only [Finset.card_range] at h2
      exact h2
    omega
  have h := walkType_isSome env find (env.length + 1)
    (dereferenceToLastPtr env (env.length + 1) t) [] [] hcnt
  simp only [buildFromType]
  cases hw : walkType env find (env.length + 1)
      (dereferenceToLastPtr env (env.length + 1) t) [] [] with
  | none => rw [hw] at h; cases h
  | some o =>
    obtain ⟨root, vis, tbl⟩ := o
    rfl

theorem size_pos (v : GoVal) : 1 ≤ v.size := by
  cases v with
  | scalar t => simp only [GoVal.size]; omega
  | vstruct t fs => simp only [GoVal.size]; omega
  | vseq t es => simp only [GoVal.size]; omega
  | vptr t inner => cases inner <;> (simp only [GoVal.size]; omega)
  | viface t inner => cases inner <;> (simp only [GoVal.size]; omega)

theorem chainLen_lt_size : ∀ (n : Nat) (v : GoVal), chainLen v = n → n < v.size := by
  intro n
  induction n with
  | zero =>
    intro v h
    have := size_pos v
    omega
  | succ n ihn =>
    intro v h
    cases v with
    | vptr t inner =>
      cases inner with
      | none => simp [chainLen] at h
      | some w =>
        have hw : chainLen w = n := by
          simp only [chainLen] at h
          omega
        have := ihn w hw
        simp only [GoVal.size]
        omega
    | scalar t => simp [chainLen] at h
    | vstruct t fs => simp [chainLen] at h
    | vseq t es => simp [chainLen] at h
    | viface t inner => simp [chainLen] at h

theorem not_ptrChainOk_vptr_none (env : TypeEnv) (t : TypeId) :
    ¬ ptrChainOk env (.vptr t none) := by
  simp [ptrChainOk]

theorem derefVal_eq_self (env : TypeEnv) (v : GoVal) (hch : ptrChainOk env v)
    (hne : ∀ e, (getType env v.typeOf).shape ≠ .ptr e) : derefVal v = v := by
  cases v with
  | vptr t inner =>
    cases inner with
    | none => exact absurd hch (not_ptrChainOk_vptr_none env t)
    | some w =>
      simp only [ptrChainOk] at hch
      exact absurd hch.1 (hne _)
  | scalar t => simp [derefVal]
  | vstruct t fs => simp [derefVal]
  | vseq t es => simp [derefVal]
  | viface t inner => simp [derefVal]

theorem ptrChainOk_endpoint (env : TypeEnv) :
    ∀ (n : Nat) (v : GoVal), chainLen v = n → ptrChainOk env v →
      ∀ e, (getType env (derefVal v).typeOf).shape ≠ .ptr e := by
  intro n
  induction n with
  | zero =>
    intro v h hch
    cases v with
    | vptr t inner =>
      cases inner with
      | none => exact absurd hch (not_ptrChainOk_vptr_none env t)
      | some w => simp [chainLen] at h
    | scalar t =>
      simp only [ptrChainOk] at hch
      simpa [derefVal] using hch
    | vstruct t fs =>
      simp only [ptrChainOk] at hch
      simpa [derefVal] using hch
    | vseq t es =>
      simp only [ptrChainOk] at hch
      simpa [derefVal] using hch
    | viface t inner =>
      simp only [ptrChainOk] at hch
      simpa [derefVal] using hch
  | succ n ihn =>
    intro v h hch
    cases v with
    | vptr t inner =>
      cases inner with
      | none => exact absurd hch (not_ptrChainOk_vptr_none env t)
      | some w =>
        simp only [ptrChainOk] at hch
        have hw : chainLen w = n := by
          simp only [chainLen] at h
          omega
        have hend := ihn w hw hch.2
        simpa [derefVal] using hend
    | scalar t => simp [chainLen] at h
    | vstruct t fs => simp [chainLen] at h
    | vseq t es => simp [chainLen] at h
    | viface t inner => simp [chainLen] at h

theorem derefOnce_nonptr (env : TypeEnv) (t : TypeId)
    (h : ∀ e, (getType env t).shape ≠ .ptr e) : derefOnce env t = t := by
  unfold derefOnce
  split
  · rename_i e heq
    exact absurd heq (h e)
  · rfl

theorem derefOnce_ptr (env : TypeEnv) {t e : TypeId}
    (h : (getType env t).shape = .ptr e) : derefOnce env t = e := by
  simp [derefOnce, h]

theorem derefAllPtr_nonptr (env : TypeEnv) (t : TypeId)
    (h : ∀ e, (getType env t).shape ≠ .ptr e) :
    ∀ N, derefAllPtr env N t = t := by
  intro N
  cases N with
  | zero => rfl
  | succ M =>
    unfold derefAllPtr
    split
    · rename_i e heq
      exact absurd heq (h e)
    · rfl

theorem dereferenceToLastPtr_nonptr (env : TypeEnv) (t : TypeId)
    (h : ∀ e, (getType env t).shape ≠ .ptr e) :
    ∀ N, dereferenceToLastPtr env N t = t := by
  intro N
  cases N with
  | zero => rfl
  | succ M =>
    unfold dereferenceToLastPtr
    split
    · rename_i e heq
      exact absurd heq (h e)
    · rfl

theorem derefAll_chain (env : TypeEnv) :
    ∀ (n : Nat) (v : GoVal), chainLen v = n → ptrChainOk env v →
      ∀ N, n ≤ N → derefAllPtr env N v.typeOf = (derefVal v).typeOf := by
  intro n
  induction n with
  | zero =>
    intro v h hch N _
    cases v with
    | vptr t inner =>
      cases inner with
      | none => exact absurd hch (not_ptrChainOk_vptr_none env t)
      | some w => simp [chainLen] at h
    | scalar t =>
      simp only [ptrChainOk] at hch
      rw [derefVal_eq_self env _ (by simpa [ptrChainOk] using hch) hch]
      exact derefAllPtr_nonptr env _ hch N
    | vstruct t fs =>
      simp only [ptrChainOk] at hch
      rw [derefVal_eq_self env _ (by simpa [ptrChainOk] using hch) hch]
      exact derefAllPtr_nonptr env _ hch N
    | vseq t es =>
      simp only [ptrChainOk] at hch
      rw [derefVal_eq_self env _ (by simpa [ptrChainOk] using hch) hch]
      exact derefAllPtr_nonptr env _ hch N
    | viface t inner =>
      simp only [ptrChainOk] at hch
      rw [derefVal_eq_self env _ (by simpa [ptrChainOk] using hch) hch]
      exact derefAllPtr_nonptr env _ hch N
  | succ n ihn =>
    intro v h hch N hN
    cases v with
    | vptr t inner =>
      cases inner with
      | none => exact absurd hch (not_ptrChainOk_vptr_none env t)
      | some w =>
        simp only [ptrChainOk] at hch
        have hw : chainLen w = n := by
          simp only [chainLen] at h
          omega
        obtain ⟨M, rfl⟩ : ∃ M, N = M + 1 := ⟨N - 1, by omega⟩
        show derefAllPtr env (M + 1) t = (derefVal (GoVal.vptr t (some w))).typeOf
        have hda : derefAllPtr env (M + 1) t = derefAllPtr env M w.typeOf := by
          simp [derefAllPtr, hch.1]
        rw [hda, ihn w hw hch.2 M (by omega)]
        simp [derefVal]
    | scalar t => simp [chainLen] at h
    | vstruct t fs => simp [chainLen] at h
    | vseq t es => simp [chainLen] at h
    | viface t inner => simp [chainLen] at h

theorem dlp_chain (env : TypeEnv) :
    ∀ (n : Nat) (v : GoVal), chainLen v = n → ptrChainOk env v →
      ∀ N, n ≤ N →
      derefOnce env (dereferenceToLastPtr env N v.typeOf) = (derefVal v).typeOf := by
  intro n
  induction n with
  | zero =>
    intro v h hch N _
    cases v with
    | vptr t inner =>
      cases inner with
      | none => exact absurd hch (not_ptrChainOk_vptr_none env t)
      | some w => simp [chainLen] at h
    | scalar t =>
      simp only [ptrChainOk] at hch
      rw [derefVal_eq_self env _ (by simpa [ptrChainOk] using hch) hch]
      rw [dereferenceToLastPtr_nonptr env _ hch N]
      exact derefOnce_nonptr env _ hch
    | vstruct t fs =>
      simp only [ptrChainOk] at hch
      rw [derefVal_eq_self env _ (by simpa [ptrChainOk] using hch) hch]
      rw [dereferenceToLastPtr_nonptr env _ hch N]
      exact derefOnce_nonptr env _ hch
    | vseq t es =>
      simp only [ptrChainOk] at hch
      rw [derefVal_eq_self env _ (by simpa [ptrChainOk] using hch) hch]
      rw [dereferenceToLastPtr_nonptr env _ hch N]
      exact derefOnce_nonptr env _ hch
    | viface t inner =>
      simp only [ptrChainOk] at hch
      rw [derefVal_eq_self env _ (by simpa [ptrChainOk] using hch) hch]
      rw [dereferenceToLastPtr_nonptr env _ hch N]
      exact derefOnce_nonptr env _ hch
  | succ n ihn =>
    intro v h hch N hN
    cases v with
    | vptr t inner =>
      cases inner with
      | none => exact absurd hch (not_ptrChainOk_vptr_none env t)
      | some w =>
        simp only [ptrChainOk] at hch
        obtain ⟨hsh, hchw⟩ := hch
        have hw : chainLen w = n := by
          simp only [chainLen] at h
          omega
        obtain ⟨M, rfl⟩ : ∃ M, N = M + 1 := ⟨N - 1, by omega⟩
        cases hse : (getType env w.typeOf).shape with
        | ptr f =>
          show derefOnce env (dereferenceToLastPtr env (M + 1) t) =
            (derefVal (GoVal.vptr t (some w))).typeOf
          have hda : dereferenceToLastPtr env (M + 1) t =
              dereferenceToLastPtr env M w.typeOf := by
            simp [dereferenceToLastPtr, hsh, hse]
          rw [hda, ihn w hw hchw M (by omega)]
          simp [derefVal]
        | prim =>
          have hne : ∀ e, (getType env w.typeOf).shape ≠ .ptr e := by
            intro e heq
            rw [hse] at heq
            cases heq
          show derefOnce env (dereferenceToLastPtr env (M + 1) t) =
            (derefVal (GoVal.vptr t (some w))).typeOf
          have hda : dereferenceToLastPtr env (M + 1) t = t := by
            simp [dereferenceToLastPtr, hsh, hse]
          rw [hda, derefOnce_ptr env hsh]
          have hde : derefVal (GoVal.vptr t (some w)) = derefVal w := by simp [derefVal]
          rw [hde, derefVal_eq_self env w hchw hne]
        | struct fs =>
          have hne : ∀ e, (getType env w.typeOf).shape ≠ .ptr e := by
            intro e heq
            rw [hse] at heq
            cases heq
          show derefOnce env (dereferenceToLastPtr env (M + 1) t) =
            (derefVal (GoVal.vptr t (some w))).typeOf
          have hda : dereferenceToLastPtr env (M + 1) t = t := by
            simp [dereferenceToLastPtr, hsh, hse]
          rw [hda, derefOnce_ptr env hsh]
          have hde : derefVal (GoVal.vptr t (some w)) = derefVal w := by simp [derefVal]
          rw [hde, derefVal_eq_self env w hchw hne]
        | slice e =>
          have hne : ∀ e', (getType env w.typeOf).shape ≠ .ptr e' := by
            intro e' heq
            rw [hse] at heq
            cases heq
          show derefOnce env (dereferenceToLastPtr env (M + 1) t) =
            (derefVal (GoVal.vptr t (some w))).typeOf
          have hda : dereferenceToLastPtr env (M + 1) t = t := by
            simp [dereferenceToLastPtr, hsh, hse]
          rw [hda, derefOnce_ptr env hsh]
          have hde : derefVal (GoVal.vptr t (some w)) = derefVal w := by simp [derefVal]
          rw [hde, derefVal_eq_self env w hchw hne]
        | array e =>
          have hne : ∀ e', (getType env w.typeOf).shape ≠ .ptr e' := by
            intro e' heq
            rw [hse] at heq
            cases heq
          show derefOnce env (dereferenceToLastPtr env (M + 1) t) =
            (derefVal (GoVal.vptr t (some w))).typeOf
          have hda : dereferenceToLastPtr env (M + 1) t = t := by
            simp [dereferenceToLastPtr, hsh, hse]
          rw [hda, derefOnce_ptr env hsh]
          have hde : derefVal (GoVal.vptr t (some w)) = derefVal w := by simp [derefVal]
          rw [hde, derefVal_eq_self env w hchw hne]
        | map k e =>
          have hne : ∀ e', (getType env w.typeOf).shape ≠ .ptr e' := by
            intro e' heq
            rw [hse] at heq
            cases heq
          show derefOnce env (dereferenceToLastPtr env (M + 1) t) =
            (derefVal (GoVal.vptr t (some w))).typeOf
          have hda : dereferenceToLastPtr env (M + 1) t = t := by
            simp [dereferenceToLastPtr, hsh, hse]
          rw [hda, derefOnce_ptr env hsh]
          have hde : derefVal (GoVal.vptr t (some w)) = derefVal w := by simp [derefVal]
          rw [hde, derefVal_eq_self env w hchw hne]
        | iface =>
          have hne : ∀ e, (getType env w.typeOf).shape ≠ .ptr e := by
            intro e heq
            rw [hse] at heq
            cases heq
          show derefOnce env (dereferenceToLastPtr env (M + 1) t) =
            (derefVal (GoVal.vptr t (some w))).typeOf
          have hda : dereferenceToLastPtr env (M + 1) t = t := by
            simp [dereferenceToLastPtr, hsh, hse]
          rw [hda, derefOnce_ptr env hsh]
          have hde : derefVal (GoVal.vptr t (some w)) = derefVal w := by simp [derefVal]
          rw [hde, derefVal_eq_self env w hchw hne]
    | scalar t => simp [chainLen] at h
    | vstruct t fs => simp [chainLen] at h
    | vseq t es => simp [chainLen] at h
    | viface t inner => simp [chainLen] at h

theorem typeHasInterfaceFields_endpoint (env : TypeEnv) (v : GoVal)
    (hch : ptrChainOk env v) (hlen : chainLen v ≤ env.length) :
    typeHasInterfaceFields env v.typeOf =
      typeHasInterfaceFields env (derefVal v).typeOf := by
  have hda : derefAllPtr env (env.length + 1) v.typeOf = (derefVal v).typeOf :=
    derefAll_chain env (chainLen v) v rfl hch (env.length + 1) (by omega)
  have hne := ptrChainOk_endpoint env (chainLen v) v rfl hch
  have hda2 : derefAllPtr env (env.length + 1) ((derefVal v).typeOf) =
      (derefVal v).typeOf :=
    derefAllPtr_nonptr env _ hne _
  unfold typeHasInterfaceFields
  simp only [typeHasInterfaceFieldsRec]
  rw [hda, hda2]

theorem walkValue_chain (env : TypeEnv) (find : TypeId → List TypeMigration) :
    ∀ (fuel : Nat) (v : GoVal) (tbl : List (TypeId × typeGraphNode)),
      ptrChainOk env v → chainLen v < fuel →
      typeHasInterfaceFields env (derefVal v).typeOf = false →
      walkValue env find fuel v [] tbl =
        delegateStatic env find ((derefVal v).typeOf) [] tbl := by
  intro fuel
  induction fuel with
  | zero => intro v tbl _ h _; omega
  | succ fuel ih =>
    intro v tbl hch hlen hif
    cases v with
    | vptr t inner =>
      cases inner with
      | none => exact absurd hch (not_ptrChainOk_vptr_none env t)
      | some w =>
        simp only [ptrChainOk] at hch
        have hlw : chainLen w < fuel := by
          simp only [chainLen] at hlen
          omega
        have hifw : typeHasInterfaceFields env (derefVal w).typeOf = false := by
          have hde : derefVal (GoVal.vptr t (some w)) = derefVal w := by simp [derefVal]
          rw [hde] at hif
          exact hif
        have hde : derefVal (GoVal.vptr t (some w)) = derefVal w := by simp [derefVal]
        rw [hde]
        simp only [walkValue]
        exact ih w tbl hch.2 hlw hifw
    | scalar t =>
      have hde : derefVal (GoVal.scalar t) = GoVal.scalar t := by simp [derefVal]
      rw [hde] at hif ⊢
      simp only [GoVal.typeOf] at hif
      simp only [walkValue, GoVal.typeOf, List.not_mem_nil, if_false]
      rw [if_pos hif]
    | viface t inner =>
      have hde : derefVal (GoVal.viface t inner) = GoVal.viface t inner := by
        simp [derefVal]
      rw [hde] at hif ⊢
      simp only [GoVal.typeOf] at hif
      simp only [walkValue, GoVal.typeOf, List.not_mem_nil, if_false]
      rw [if_pos hif]
    | vseq t es =>
      have hde : derefVal (GoVal.vseq t es) = GoVal.vseq t es := by simp [derefVal]
      rw [hde] at hif ⊢
      simp only [GoVal.typeOf] at hif
      simp only [walkValue, GoVal.typeOf, List.not_mem_nil, if_false]
      rw [if_pos hif]
    | vstruct t fs =>
      have hde : derefVal (GoVal.vstruct t fs) = GoVal.vstruct t fs := by simp [derefVal]
      rw [hde] at hif ⊢
      simp only [GoVal.typeOf] at hif
      simp only [walkValue, GoVal.typeOf, List.not_mem_nil, if_false]
      rw [if_pos hif]

theorem walkType_start_eq (env : TypeEnv) (find : TypeId → List TypeMigration)
    (fuel : Nat) (a b : TypeId) (vis : List TypeId)
    (tbl : List (TypeId × typeGraphNode)) (h : derefOnce env a = derefOnce env b) :
    walkType env find (fuel + 1) a vis tbl = walkType env find (fuel + 1) b vis tbl := by
  simp only [walkType]
  rw [h]

theorem buildFromType_chain (env : TypeEnv) (find : TypeId → List TypeMigration)
    (v : GoVal) (hch : ptrChainOk env v) (hlen : chainLen v ≤ env.length) :
    buildFromType env find v.typeOf = buildFromType env find ((derefVal v).typeOf) := by
  have hne := ptrChainOk_endpoint env (chainLen v) v rfl hch
  have h1 : derefOnce env (dereferenceToLastPtr env (env.length + 1) v.typeOf) =
      (derefVal v).typeOf :=
    dlp_chain env (chainLen v) v rfl hch (env.length + 1) (by omega)
  have h2 : derefOnce env (dereferenceToLastPtr env (env.length + 1)
      ((derefVal v).typeOf)) = (derefVal v).typeOf := by
    rw [dereferenceToLastPtr_nonptr env _ hne]
    exact derefOnce_nonptr env _ hne
  simp only [buildFromType]
  rw [walkType_start_eq env find env.length _ _ [] [] (h1.trans h2.symm)]

/-- C9. For every non-nil value — a fully non-nil, well-formed pointer chain
over a type universe whose chains fit the universe — whose type reaches no
interface field anywhere in its shape, the runtime builder delegates wholly
to the static builder: `buildFromValue` on the value equals `buildFromType`
on the value's type at the same version (the `find` parameter carries the
bound version). -/
theorem claim_C9 (env : TypeEnv) (find : TypeId → List TypeMigration) (v : GoVal)
    (hch : ptrChainOk env v) (hlen : chainLen v ≤ env.length)
    (hif : typeHasInterfaceFields env v.typeOf = false) :
    buildFromValue env find v = buildFromType env find v.typeOf := by
  have hif' : typeHasInterfaceFields env (derefVal v).typeOf = false := by
    rw [← typeHasInterfaceFields_endpoint env v hch hlen]
    exact hif
  have hfuel : chainLen v < v.size + 1 := by
    have := chainLen_lt_size (chainLen v) v rfl
    omega
  have hwc := walkValue_chain env find (v.size + 1) v [] hch hfuel hif'
  have hbc := buildFromType_chain env find v hch hlen
  rw [hbc]
  simp only [buildFromValue]
  rw [hwc]
  simp only [delegateStatic]
  cases hb : buildFromType env find ((derefVal v).typeOf) with
  | none => rfl
  | some g =>
    cases g with
    | mk root nodes => simp

theorem claim_C9_witness :
    buildFromValue witEnv (fun _ => []) (GoVal.vptr 2 (some (GoVal.scalar 1))) =
      buildFromType witEnv (fun _ => []) 2 :=
  claim_C9 witEnv (fun _ => []) (GoVal.vptr 2 (some (GoVal.scalar 1)))
    (by refine ⟨rfl, ?_⟩
        intro e h
        simp [getType, witEnv, GoVal.typeOf] at h)
    (by simp [chainLen, witEnv]) (by decide)

theorem jSize_pos (v : JValue) : 1 ≤ v.size := by
  cases v <;> (simp only [JValue.size]; omega)

theorem jSizeEntries_mem :
    ∀ (entries : List (String × JValue)) (k : String) (val : JValue),
      (k, val) ∈ entries → val.size ≤ jSizeEntries entries := by
  intro entries
  induction entries with
  | nil => intro k val h; cases h
  | cons e rest ih =>
    intro k val h
    obtain ⟨k', val'⟩ := e
    rcases List.mem_cons.mp h with h1 | h2
    · obtain ⟨rfl, rfl⟩ := Prod.mk.injEq .. |>.mp h1.symm
      simp only [jSizeEntries]
      omega
    · have := ih k val h2
      simp only [jSizeEntries]
      omega

theorem jSizeElems_mem :
    ∀ (elems : List JValue) (e : JValue), e ∈ elems → e.size ≤ jSizeElems elems := by
  intro elems
  induction elems with
  | nil => intro e h; cases h
  | cons x rest ih =>
    intro e h
    rcases List.mem_cons.mp h with h1 | h2
    · subst h1
      simp only [jSizeElems]
      omega
    · have := ih e h2
      simp only [jSizeElems]
      omega

theorem entriesGo_congr {recF1 recF2 : TypeId → JValue → Except Err JValue}
    (fields : List (String × TypeId)) :
    ∀ entries : List (String × JValue),
      (∀ k val, (k, val) ∈ entries → ∀ cid, recF1 cid val = recF2 cid val) →
      entriesGo recF1 fields entries = entriesGo recF2 fields entries := by
  intro entries
  induction entries with
  | nil => intro _; rfl
  | cons e rest ih =>
    intro h
    obtain ⟨k, val⟩ := e
    have hrest := ih fun k' v' hm cid => h k' v' (List.mem_cons_of_mem _ hm) cid
    simp only [entriesGo]
    by_cases hc : k ≠ "__elem" ∧ val.isNull = false
    · rw [if_pos hc, if_pos hc]
      cases hlk : fields.lookup k with
      | none => rw [hrest]
      | some cid =>
        have hfun : ∀ c, recF1 c val = recF2 c val :=
          fun c => h k val (List.mem_cons_self _ _) c
        simp only [hfun, hrest]
    · rw [if_neg hc, if_neg hc, hrest]

theorem elemsGo_congr {recE1 recE2 : JValue → Except Err JValue} :
    ∀ elems : List JValue, (∀ e, e ∈ elems → recE1 e = recE2 e) →
      elemsGo recE1 elems = elemsGo recE2 elems := by
  intro elems
  induction elems with
  | nil => intro _; rfl
  | cons x rest ih =>
    intro h
    simp only [elemsGo]
    rw [h x (List.mem_cons_self _ _), ih fun e hm => h e (List.mem_cons_of_mem _ hm)]

theorem migrateForwardAt_fuel_congr :
    ∀ (N : Nat) (v : JValue) (tbl : List (TypeId × typeGraphNode)) (t : TypeId)
      (fuel₁ fuel₂ : Nat), v.size ≤ N → v.size < fuel₁ → v.size < fuel₂ →
      migrateForwardAt tbl fuel₁ t v = migrateForwardAt tbl fuel₂ t v := by
  intro N
  induction N with
  | zero =>
    intro v tbl t fuel₁ fuel₂ hN _ _
    have := jSize_pos v
    omega
  | succ N ihN =>
    intro v tbl t fuel₁ fuel₂ hN h1 h2
    obtain ⟨M1, rfl⟩ : ∃ M, fuel₁ = M + 1 := ⟨fuel₁ - 1, by omega⟩
    obtain ⟨M2, rfl⟩ : ∃ M, fuel₂ = M + 1 := ⟨fuel₂ - 1, by omega⟩
    cases v with
    | null => simp only [migrateForwardAt]
    | bool b => simp only [migrateForwardAt]
    | num n => simp only [migrateForwardAt]
    | str s => simp only [migrateForwardAt]
    | obj entries =>
      simp only [migrateForwardAt]
      have hsz : jSizeEntries entries + 1 = (JValue.obj entries).size := by
        simp [JValue.size]
      have hgo : entriesGo (migrateForwardAt tbl M1) (getNode tbl t).Fields entries =
          entriesGo (migrateForwardAt tbl M2) (getNode tbl t).Fields entries := by
        apply entriesGo_congr
        intro k val hm cid
        have hb := jSizeEntries_mem entries k val hm
        exact ihN val tbl cid M1 M2 (by omega) (by omega) (by omega)
      rw [hgo]
    | arr elems =>
      simp only [migrateForwardAt]
      have hsz : jSizeElems elems + 1 = (JValue.arr elems).size := by
        simp [JValue.size]
      have hgo : ∀ eid, elemsGo (migrateForwardAt tbl M1 eid) elems =
          elemsGo (migrateForwardAt tbl M2 eid) elems := by
        intro eid
        apply elemsGo_congr
        intro e hm
        have hb := jSizeElems_mem elems e hm
        exact ihN e tbl eid M1 M2 (by omega) (by omega) (by omega)
      simp only [hgo]

theorem MigrateForward_fuel (g : typeGraph) (v : JValue) (fuel : Nat)
    (h : v.size < fuel) :
    migrateForwardAt g.nodes fuel g.root v = g.MigrateForward v :=
  migrateForwardAt_fuel_congr v.size v g.nodes g.root fuel (v.size + 1)
    (Nat.le_refl _) h (Nat.lt_succ_self _)

theorem gSizeVals_mem :
    ∀ (l : List GoVal) (v : GoVal), v ∈ l → v.size ≤ gSizeVals l := by
  intro l
  induction l with
  | nil => intro v h; cases h
  | cons x rest ih =>
    intro v h
    rcases List.mem_cons.mp h with h1 | h2
    · subst h1
      simp only [gSizeVals]
      omega
    · have := ih v h2
      simp only [gSizeVals]
      omega

theorem walkValueFieldsGo_congr (env : TypeEnv) (find : TypeId → List TypeMigration)
    {recV1 recV2 : GoVal → List TypeId → List (TypeId × typeGraphNode) →
      Option (TypeId × List TypeId × List (TypeId × typeGraphNode))}
    (parent : TypeId) :
    ∀ (fds : List GoField) (fvs : List GoVal) (vis : List TypeId)
      (tbl : List (TypeId × typeGraphNode)),
      (∀ t w, GoVal.viface t (some w) ∈ fvs →
        ∀ vis' tbl', recV1 w vis' tbl' = recV2 w vis' tbl') →
      walkValueFieldsGo env find recV1 parent fds fvs vis tbl =
        walkValueFieldsGo env find recV2 parent fds fvs vis tbl := by
  intro fds
  induction fds with
  | nil => intro fvs vis tbl _; rfl
  | cons fd fds ih =>
    intro fvs vis tbl h
    cases fvs with
    | nil => rfl
    | cons fv fvs' =>
      have hrest : ∀ vis' tbl',
          walkValueFieldsGo env find recV1 parent fds fvs' vis' tbl' =
            walkValueFieldsGo env find recV2 parent fds fvs' vis' tbl' :=
        fun vis' tbl' =>
          ih fvs' vis' tbl' fun t w hm vis'' tbl'' =>
            h t w (List.mem_cons_of_mem _ hm) vis'' tbl''
      simp only [walkValueFieldsGo]
      cases hsh : (getType env fd.type).shape with
      | iface =>
        cases fv with
        | viface t' inner' =>
          cases inner' with
          | none => exact hrest vis tbl
          | some w =>
            simp only [h t' w (List.mem_cons_self _ _), hrest]
        | scalar t' => exact hrest vis tbl
        | vstruct t' fs' => exact hrest vis tbl
        | vseq t' es' => exact hrest vis tbl
        | vptr t' inner' => exact hrest vis tbl
      | prim => simp only [hrest]
      | struct fs2 => simp only [hrest]
      | slice e2 => simp only [hrest]
      | array e2 => simp only [hrest]
      | ptr e2 => simp only [hrest]
      | map k2 e2 => simp only [hrest]

theorem walkValue_fuel_congr (env : TypeEnv) (find : TypeId → List TypeMigration) :
    ∀ (N : Nat) (v : GoVal) (vis : List TypeId) (tbl : List (TypeId × typeGraphNode))
      (fuel₁ fuel₂ : Nat), v.size ≤ N → v.size < fuel₁ → v.size < fuel₂ →
      walkValue env find fuel₁ v vis tbl = walkValue env find fuel₂ v vis tbl := by
  intro N
  induction N with
  | zero =>
    intro v vis tbl fuel₁ fuel₂ hN _ _
    have := size_pos v
    omega
  | succ N ihN =>
    intro v vis tbl fuel₁ fuel₂ hN h1 h2
    obtain ⟨M1, rfl⟩ : ∃ M, fuel₁ = M + 1 := ⟨fuel₁ - 1, by omega⟩
    obtain ⟨M2, rfl⟩ : ∃ M, fuel₂ = M + 1 := ⟨fuel₂ - 1, by omega⟩
    cases v with
    | vptr t inner =>
      cases inner with
      | none => simp only [walkValue]
      | some w =>
        simp only [walkValue]
        simp only [GoVal.size] at hN h1 h2
        exact ihN w vis tbl M1 M2 (by omega) (by omega) (by omega)
    | scalar t => simp only [walkValue]
    | viface t inner => simp only [walkValue]
    | vseq t elems =>
      simp only [walkValue]
      by_cases hmem : t ∈ vis
      · simp only [hmem, if_true]
      · simp only [hmem, if_false]
        by_cases hif : typeHasInterfaceFields env t = false
        · simp only [hif, eq_self_iff_true, if_true]
        · simp only [hif, if_false]
          cases elems with
          | nil => rfl
          | cons e es' =>
            have hesz : e.size ≤ gSizeVals (e :: es') := gSizeVals_mem _ e (List.mem_cons_self _ _)
            have hvsz : gSizeVals (e :: es') + 1 = (GoVal.vseq t (e :: es')).size := by
              simp [GoVal.size]
            cases e with
            | viface t' inner' =>
              cases inner' with
              | some ev =>
                have hev : ev.size + 1 = (GoVal.viface t' (some ev)).size := by
                  simp [GoVal.size]
                simp only [ihN ev (t :: vis) (upsert tbl t ⟨find t, []⟩) M1 M2
                  (by omega) (by omega) (by omega)]
              | none =>
                simp only [ihN (GoVal.viface t' none) (t :: vis) (upsert tbl t ⟨find t, []⟩)
                  M1 M2 (by omega) (by omega) (by omega)]
            | scalar t' =>
              simp only [ihN (GoVal.scalar t') (t :: vis) (upsert tbl t ⟨find t, []⟩)
                M1 M2 (by omega) (by omega) (by omega)]
            | vstruct t' fs' =>
              simp only [ihN (GoVal.vstruct t' fs') (t :: vis) (upsert tbl t ⟨find t, []⟩)
                M1 M2 (by omega) (by omega) (by omega)]
            | vseq t' es2 =>
              simp only [ihN (GoVal.vseq t' es2) (t :: vis) (upsert tbl t ⟨find t, []⟩)
                M1 M2 (by omega) (by omega) (by omega)]
            | vptr t' inner' =>
              simp only [ihN (GoVal.vptr t' inner') (t :: vis) (upsert tbl t ⟨find t, []⟩)
                M1 M2 (by omega) (by omega) (by omega)]
    | vstruct t fvs =>
      simp only [walkValue]
      by_cases hmem : t ∈ vis
      · simp only [hmem, if_true]
      · simp only [hmem, if_false]
        by_cases hif : typeHasInterfaceFields env t = false
        · simp only [hif, eq_self_iff_true, if_true]
        · simp only [hif, if_false]
          have hgo := walkValueFieldsGo_congr env find t (structFieldsOf env t) fvs
            (t :: vis) (upsert tbl t ⟨find t, []⟩)
            (fun t' w hm vis' tbl' => by
              have hws : w.size + 1 ≤ gSizeVals fvs := by
                have := gSizeVals_mem fvs (GoVal.viface t' (some w)) hm
                simp only [GoVal.size] at this
                omega
              have hvsz : gSizeVals fvs + 1 = (GoVal.vstruct t fvs).size := by
                simp [GoVal.size]
              exact ihN w vis' tbl' M1 M2 (by omega) (by omega) (by omega))
          simp only [hgo]

theorem buildFromValue_fuel (env : TypeEnv) (find : TypeId → List TypeMigration)
    (v : GoVal) (fuel : Nat) (h : v.size < fuel) :
    walkValue env find fuel v [] [] = walkValue env find (v.size + 1) v [] [] :=
  walkValue_fuel_congr env find v.size v [] [] fuel (v.size + 1)
    (Nat.le_refl _) h (Nat.lt_succ_self _)

theorem isOlderThan_false_iff (parse : String → Option Nat) (x y : Version)
    (hx : (parse x.Value).isSome) (hy : (parse y.Value).isSome) :
    (Version.isOlderThan parse y x = false) ↔ parseVal parse x ≤ parseVal parse y := by
  obtain ⟨a, ha⟩ := Option.isSome_iff_exists.mp hx
  obtain ⟨b, hb⟩ := Option.isSome_iff_exists.mp hy
  simp [Version.isOlderThan, parseVal, ha, hb, Nat.not_lt]

theorem orderedInsert_pairwise_le (parse : String → Option Nat) (a : Version) :
    ∀ l : List Version, (parse a.Value).isSome → (∀ v ∈ l, (parse v.Value).isSome) →
      l.Pairwise (fun x y => parseVal parse x ≤ parseVal parse y) →
      (l.orderedInsert (fun x y => Version.isOlderThan parse y x = false) a).Pairwise
        (fun x y => parseVal parse x ≤ parseVal parse y) := by
  intro l
  induction l with
  | nil =>
    intro _ _ _
    simp [List.orderedInsert]
  | cons b l ih =>
    intro ha hall hpw
    rw [List.orderedInsert]
    have hb := hall b (List.mem_cons_self _ _)
    by_cases hr : Version.isOlderThan parse b a = false
    · rw [if_pos hr]
      have hab : parseVal parse a ≤ parseVal parse b :=
        (isOlderThan_false_iff parse a b ha hb).mp hr
      refine List.pairwise_cons.mpr ⟨?_, hpw⟩
      intro x hx
      rcases List.mem_cons.mp hx with rfl | hx'
      · exact hab
      · exact le_trans hab ((List.pairwise_cons.mp hpw).1 x hx')
    · rw [if_neg hr]
      have hba : parseVal parse b ≤ parseVal parse a := by
        have hnot : ¬ (parseVal parse a ≤ parseVal parse b) := fun hle =>
          hr ((isOlderThan_false_iff parse a b ha hb).mpr hle)
        omega
      refine List.pairwise_cons.mpr
        ⟨?_, ih ha (fun v hv => hall v (List.mem_cons_of_mem _ hv))
          (List.pairwise_cons.mp hpw).2⟩
      intro x hx
      rcases (List.mem_orderedInsert _).mp hx with rfl | hx'
      · exact hba
      · exact (List.pairwise_cons.mp hpw).1 x hx'

theorem sortVersions_sorted (parse : String → Option Nat) :
    ∀ l : List Version, (∀ v ∈ l, (parse v.Value).isSome) →
      (sortVersions parse l).Pairwise fun x y => parseVal parse x ≤ parseVal parse y := by
  intro l
  induction l with
  | nil =>
    intro _
    simp [sortVersions, List.insertionSort]
  | cons a l ih =>
    intro hall
    rw [sortVersions, List.insertionSort]
    exact orderedInsert_pairwise_le parse a _ (hall a (List.mem_cons_self _ _))
      (fun v hv =>
        hall v (List.mem_cons_of_mem _ ((List.perm_insertionSort _ l).mem_iff.mp hv)))
      (ih fun v hv => hall v (List.mem_cons_of_mem _ hv))

theorem Build_sorted (parse : String → Option Nat) (rm : RequestMigration)
    (hall : ∀ v ∈ rm.versions, (parse v.Value).isSome)
    (herr : rm.err = none) (hbuilt : rm.built = false)
    (hfmt : (rm.format == SemverFormat || rm.format == DateFormat) = true) :
    ((Build parse rm).1.versions).Pairwise
      fun x y => parseVal parse x ≤ parseVal parse y := by
  simp only [Build, herr, hbuilt, hfmt, Bool.false_eq_true, if_false, if_true]
  exact sortVersions_sorted parse rm.versions hall

theorem lookup_upsert_ne [BEq α] [LawfulBEq α] (l : List (α × β)) {k k' : α} (v : β)
    (h : k' ≠ k) : (upsert l k v).lookup k' = l.lookup k' := by
  have hb : (k' == k) = false := beq_eq_false_iff_ne.mpr h
  induction l with
  | nil => simp [upsert, List.lookup, hb]
  | cons hd tl ih =>
    obtain ⟨k0, v0⟩ := hd
    by_cases h0 : k0 = k
    · subst h0
      simp [upsert, List.lookup, hb]
    · have hb0 : (k0 == k) = false := beq_eq_false_iff_ne.mpr h0
      cases hk0 : k' == k0 <;> simp [upsert, hb0, List.lookup, hk0, ih]

theorem mem_upsert [BEq α] [LawfulBEq α] (l : List (α × β)) (k : α) (v : β)
    (p : α × β) : p ∈ upsert l k v → p = (k, v) ∨ p ∈ l := by
  induction l with
  | nil =>
    intro h
    simp only [upsert] at h
    rcases List.mem_cons.mp h with h1 | h2
    · exact Or.inl h1
    · cases h2
  | cons hd tl ih =>
    obtain ⟨k0, v0⟩ := hd
    intro h
    simp only [upsert] at h
    by_cases h0 : k0 == k
    · rw [if_pos h0] at h
      rcases List.mem_cons.mp h with h1 | h2
      · exact Or.inl h1
      · exact Or.inr (List.mem_cons_of_mem _ h2)
    · rw [if_neg h0] at h
      rcases List.mem_cons.mp h with h1 | h2
      · exact Or.inr (h1 ▸ List.mem_cons_self _ _)
      · rcases ih h2 with h3 | h4
        · exact Or.inl h3
        · exact Or.inr (List.mem_cons_of_mem _ h4)

theorem registerTypeMigration_keys (rm : RequestMigration) (version : String)
    (t : TypeId) (m : TypeMigration)
    (hinv : ∀ ty hist s mg, rm.migrations.lookup ty = some hist → (s, mg) ∈ hist →
      ∃ v ∈ rm.versions, v.Value = s) :
    ∀ ty hist s mg,
      (registerTypeMigration rm version t m).migrations.lookup ty = some hist →
      (s, mg) ∈ hist →
      ∃ v ∈ (registerTypeMigration rm version t m).versions, v.Value = s := by
  intro ty hist s mg hlook hmem
  have hvsub : ∀ v : Version, v ∈ rm.versions →
      v ∈ (registerTypeMigration rm version t m).versions := by
    intro v hv
    simp only [registerTypeMigration]
    by_cases hk : rm.versions.any fun w => w.Value == version
    · simp only [hk, if_true]
      exact hv
    · simp only [hk, if_false]
      exact List.mem_append_left _ hv
  have hvin : ∃ v ∈ (registerTypeMigration rm version t m).versions, v.Value = version := by
    simp only [registerTypeMigration]
    by_cases hk : rm.versions.any fun w => w.Value == version
    · simp only [hk, if_true]
      obtain ⟨w, hw, hweq⟩ := List.any_eq_true.mp hk
      exact ⟨w, hw, by simpa using hweq⟩
    · simp only [hk, if_false]
      exact ⟨⟨version⟩, List.mem_append_right _ (List.mem_cons_self _ _), rfl⟩
  by_cases hty : ty = t
  · subst hty
    rw [show (registerTypeMigration rm version ty m).migrations =
        upsert rm.migrations ty
          (upsert ((rm.migrations.lookup ty).getD []) version m) from rfl,
      lookup_upsert] at hlook
    obtain rfl := Option.some_inj.mp hlook
    rcases mem_upsert _ _ _ _ hmem with h1 | h2
    · obtain ⟨rfl, rfl⟩ := Prod.mk.injEq .. |>.mp h1
      exact hvin
    · cases hl0 : rm.migrations.lookup ty with
      | none =>
        rw [hl0] at h2
        cases h2
      | some hist0 =>
        rw [hl0] at h2
        obtain ⟨v, hv, hveq⟩ := hinv ty hist0 s mg hl0 h2
        exact ⟨v, hvsub v hv, hveq⟩
  · rw [show (registerTypeMigration rm version t m).migrations =
        upsert rm.migrations t
          (upsert ((rm.migrations.lookup t).getD []) version m) from rfl,
      lookup_upsert_ne _ _ hty] at hlook
    obtain ⟨v, hv, hveq⟩ := hinv ty hist s mg hlook hmem
    exact ⟨v, hvsub v hv, hveq⟩

end RequestMigrations
